import Mathlib

/-!
Shallow embedding of the cluste-rs k-means core (src/point.rs,
src/hyper_rectangle.rs, src/quickselect.rs, src/mrkd.rs, src/centers.rs,
src/clusterer.rs) and proofs about the claims of its specification.

Modelling conventions:
* `f64` coordinates are modelled as exact rationals `ℚ` (the claims are
  stated up to floating-point rounding, i.e. over exact real arithmetic).
* `Point::distance` computes `sqrt (Σ (xᵢ - yᵢ)²)`.  Every use of a distance
  in the verified code is a comparison (`<`, `==`) or a zero test, and
  `sqrt` is strictly monotone on nonnegative reals, so distances are
  uniformly replaced by squared distances `distSq`; all comparisons coincide.
* Rust panics (index underflow/overflow, empty-input `median`) are modelled
  by `Option`: `none` is a failed (panicking or diverging) computation.
* The random number generator is modelled as a stream `σ : ℕ → ℕ` of
  arbitrary values; `sample(rng, n, 1)` becomes `σ 0 % n` and the stream is
  advanced by one.  Every theorem quantifies over all streams, which covers
  all seeds.
-/

namespace kmeans

/-- `Point<M>` from src/point.rs: a fixed-length vector of `M` reals. -/
abbrev Point (m : ℕ) := Fin m → ℚ

variable {m k : ℕ}

/-- Index a point at a `usize` index, as `p.0[d]` in the source.  An
out-of-range access (a Rust panic, which never happens on the verified
paths) yields the junk value `0`. -/
def coord (p : Point m) (d : ℕ) : ℚ :=
  if h : d < m then p ⟨d, h⟩ else 0

/-- Squared Euclidean distance; the source's `Point::distance` is its
square root (see the module comment). -/
def distSq (p q : Point m) : ℚ := ∑ d, (p d - q d) ^ 2

/-- Pointwise sum of a list of points, as the accumulation loops in
`Tree::make_node` and the k-means inner loops (`Point` has `Add`). -/
def psum (l : List (Point m)) : Point m := l.foldl (· + ·) 0

/-- `Point / usize` from src/point.rs: divide every coordinate. -/
def divN (p : Point m) (n : ℕ) : Point m := fun d => p d / (n : ℚ)

/-- Modelled from the spec: `Point * usize`, used by `Centers::update` as
`tree.center_of_mass * tree.number_of_points` (src/centers.rs line 33); the
`Mul` impl itself is not present under src/, and spec §4.4 describes the
contribution as the scalar product `center_of_mass * number_of_points`. -/
def mulN (p : Point m) (n : ℕ) : Point m := fun d => p d * (n : ℚ)

/-- `get_range` from src/point.rs: per-dimension min and max.  The source
folds from `±∞` in `f64`; over `ℚ` we fold from the first element, which
agrees on every non-empty list (and an empty list, for which the source
would return infinities, yields junk `(0, 0)` — tree construction fails on
empty input before the value is ever read). -/
def get_range (points : List (Point m)) : Point m × Point m :=
  (fun d => match points.map (fun p => p d) with
            | [] => 0
            | c :: cs => cs.foldl min c,
   fun d => match points.map (fun p => p d) with
            | [] => 0
            | c :: cs => cs.foldl max c)

/-- `HyperRectangle<M>` from src/hyper_rectangle.rs: `.0` is the min corner
(`lo`), `.1` the max corner (`hi`). -/
structure HyperRectangle (m : ℕ) where
  lo : Point m
  hi : Point m
  deriving DecidableEq

/-- Replace coordinate `d` of a point (`a.0[d] = v` in the source). -/
def setCoord (p : Point m) (d : ℕ) (v : ℚ) : Point m :=
  fun e => if (e : ℕ) = d then v else p e

/-- `HyperRectangle::split` from src/hyper_rectangle.rs. -/
def HyperRectangle.split (h : HyperRectangle m) (d : ℕ) (v : ℚ) :
    HyperRectangle m × HyperRectangle m :=
  (⟨h.lo, setCoord h.hi d v⟩, ⟨setCoord h.lo d v, h.hi⟩)

/-- `HyperRectangle::closest` from src/hyper_rectangle.rs: clamp every
coordinate into `[lo d, hi d]` (Rust `f64::clamp`, which requires
`lo ≤ hi`). -/
def HyperRectangle.closest (h : HyperRectangle m) (p : Point m) : Point m :=
  fun d => max (h.lo d) (min (p d) (h.hi d))

/-- Squared version of `HyperRectangle::distance` from
src/hyper_rectangle.rs (`closest(point).distance(point)`). -/
def HyperRectangle.distSq (h : HyperRectangle m) (p : Point m) : ℚ :=
  kmeans.distSq (h.closest p) p

/-- A point lies inside a hyper-rectangle: `lo d ≤ p d ≤ hi d` for all `d`. -/
abbrev HyperRectangle.containsP (h : HyperRectangle m) (p : Point m) : Prop :=
  ∀ d, h.lo d ≤ p d ∧ p d ≤ h.hi d

/-- Box inclusion: `h1` lies inside `h2`. -/
abbrev HyperRectangle.insideB (h1 h2 : HyperRectangle m) : Prop :=
  ∀ d, h2.lo d ≤ h1.lo d ∧ h1.hi d ≤ h2.hi d

/-- A well-formed box: `lo d ≤ hi d` for all `d`. -/
abbrev HyperRectangle.wf (h : HyperRectangle m) : Prop :=
  ∀ d, h.lo d ≤ h.hi d

lemma distSq_nonneg (p q : Point m) : 0 ≤ distSq p q :=
  Finset.sum_nonneg fun _ _ => sq_nonneg _

lemma clamp_mem {lo hi x : ℚ} (h : lo ≤ hi) :
    lo ≤ max lo (min x hi) ∧ max lo (min x hi) ≤ hi := by
  constructor
  · exact le_max_left _ _
  · exact max_le h (min_le_right _ _)

lemma clamp_sq_le {lo hi x y : ℚ} (h1 : lo ≤ y) (h2 : y ≤ hi) :
    (max lo (min x hi) - x) ^ 2 ≤ (y - x) ^ 2 := by
  rcases le_total x lo with hx | hx
  · have hcl : max lo (min x hi) = lo := by
      have : min x hi ≤ lo := le_trans (min_le_left _ _) hx
      simp [max_eq_left this]
    rw [hcl]
    nlinarith
  · rcases le_total x hi with hx2 | hx2
    · have hcl : max lo (min x hi) = x := by
        rw [min_eq_left hx2, max_eq_right hx]
      rw [hcl]
      nlinarith
    · have hcl : max lo (min x hi) = hi := by
        rw [min_eq_right hx2, max_eq_right (le_trans h1 h2)]
      rw [hcl]
      nlinarith

lemma closest_self_of_mem {h : HyperRectangle m} {p : Point m}
    (hp : h.containsP p) : h.closest p = p := by
  funext d
  have := hp d
  simp only [HyperRectangle.closest]
  rw [min_eq_left this.2, max_eq_right this.1]

/-- C9 (helper): the clamped point lies inside the box and minimises the
squared distance to `p` among points of the box. -/
lemma closest_optimal {h : HyperRectangle m} (hwf : h.wf) (p : Point m) :
    h.containsP (h.closest p) ∧
      ∀ q, h.containsP q → distSq (h.closest p) p ≤ distSq q p := by
  constructor
  · intro d
    exact clamp_mem (hwf d)
  · intro q hq
    apply Finset.sum_le_sum
    intro d _
    exact clamp_sq_le (hq d).1 (hq d).2

/-- C9: for every well-formed hyper-rectangle and every point `p`,
`HyperRectangle::closest(p)` is the point of the box nearest to `p` (under
Euclidean distance, equivalently squared distance), it equals `p` clamped
coordinatewise into `[lo d, hi d]`, and the box-to-point distance is `0`
whenever `p` lies inside the box. -/
theorem hyperrectangle_closest_correct (h : HyperRectangle m) (p : Point m)
    (hwf : h.wf) :
    h.containsP (h.closest p) ∧
      (∀ q, h.containsP q → distSq (h.closest p) p ≤ distSq q p) ∧
      (∀ d, h.closest p d = max (h.lo d) (min (p d) (h.hi d))) ∧
      (h.containsP p → h.distSq p = 0) := by
  obtain ⟨hin, hopt⟩ := closest_optimal hwf p
  refine ⟨hin, hopt, fun d => rfl, fun hp => ?_⟩
  rw [HyperRectangle.distSq, closest_self_of_mem hp]
  simp [distSq]

/-- Witness for C9 at a concrete box and point: the box `[(0,0),(2,2)]`
from the repository's tests and the outside point `(-2, 3)`. -/
theorem hyperrectangle_closest_correct_witness :
    let h : HyperRectangle 2 := ⟨![0, 0], ![2, 2]⟩
    let p : Point 2 := ![-2, 3]
    h.containsP (h.closest p) ∧
      (∀ q, h.containsP q → distSq (h.closest p) p ≤ distSq q p) ∧
      (∀ d, h.closest p d = max (h.lo d) (min (p d) (h.hi d))) ∧
      (h.containsP p → h.distSq p = 0) :=
  hyperrectangle_closest_correct _ _ (by decide)

/-! ## The pruning/assignment engine (src/centers.rs) -/

/-- `Centers<K, M>` from src/centers.rs: an ordered collection of `K`
center points (`self.0`). -/
abbrev Centers (k m : ℕ) := Fin k → Point m

/-- Index the center array at a `usize` index (`self.0[c]`); out of range
(a Rust panic, never reached on the verified paths) yields junk `0`. -/
def cget (cs : Centers k m) (c : ℕ) : Point m :=
  if h : c < k then cs ⟨c, h⟩ else 0

/-- The scan of `Centers::closest`: fold over `0..n` keeping the least
value and the first index attaining it.  The accumulator `none` plays the
role of the initial `min_d = f64::INFINITY`. -/
def minScan (g : ℕ → ℚ) (n : ℕ) : Option (ℚ × ℕ) :=
  (List.range n).foldl (fun acc c =>
    match acc with
    | none => some (g c, c)
    | some (md, mc) => if g c < md then some (g c, c) else some (md, mc)) none

/-- `Centers::closest` from src/centers.rs: index of the first
minimum-distance center (`min_c` starts at `0`, which is also returned for
`K = 0`). -/
def Centers.closest (cs : Centers k m) (p : Point m) : ℕ :=
  match minScan (fun c => distSq p (cget cs c)) k with
  | some (_, mc) => mc
  | none => 0

/-- The scan of `Centers::min_d`, additionally tracking the
`single_closest` flag: a repeated minimum flips it to `false`, a strictly
smaller value resets it to `true`. -/
def minDScan (g : ℕ → ℚ) (n : ℕ) : Option (ℚ × ℕ) × Bool :=
  (List.range n).foldl (fun st c =>
    match st with
    | (none, _) => (some (g c, c), true)
    | (some (md, mc), single) =>
      if g c = md then (some (md, mc), false)
      else if g c < md then (some (g c, c), true)
      else (some (md, mc), single)) (none, true)

/-- `Centers::min_d` from src/centers.rs: the unique closest center to the
box, or `none` when several tie for the minimum. -/
def min_d (cs : Centers k m) (h : HyperRectangle m) : Option ℕ :=
  match minDScan (fun c => h.distSq (cget cs c)) k with
  | (acc, true) => some (match acc with | some (_, mc) => mc | none => 0)
  | (_, false) => none

/-- `Centers::dominates` from src/centers.rs: build the point of `h`
farthest in the direction from `c1` towards `c2` and compare its (squared)
distances to the two centers. -/
def dominates (cs : Centers k m) (c1 c2 : ℕ) (h : HyperRectangle m) : Bool :=
  let p : Point m := fun d =>
    if cget cs c1 d < cget cs c2 d then h.hi d else h.lo d
  decide (distSq p (cget cs c1) < distSq p (cget cs c2))

/-- `Centers::owner` from src/centers.rs: the unique closest center,
provided it dominates every other center over `h`. -/
def owner (cs : Centers k m) (h : HyperRectangle m) : Option ℕ :=
  match min_d cs h with
  | none => none
  | some c1 =>
    if (List.range k).all (fun c2 => c1 == c2 || dominates cs c1 c2 h) then
      some c1
    else
      none

/-- After scanning `0..n` with `n ≥ 1`, `minScan` holds the first index
attaining the minimum. -/
lemma minScan_spec (g : ℕ → ℚ) (n : ℕ) (hn : 0 < n) :
    ∃ j, j < n ∧ minScan g n = some (g j, j) ∧
      (∀ i, i < n → g j ≤ g i) ∧ (∀ i, i < j → g j < g i) := by
  induction n with
  | zero => omega
  | succ n ih =>
    rcases Nat.eq_zero_or_pos n with hz | hpos
    · subst hz
      refine ⟨0, by omega, ?_, ?_, ?_⟩
      · rfl
      · intro i hi
        interval_cases i
        exact le_refl _
      · intro i hi
        omega
    · obtain ⟨j, hj, hfold, hmin, hfirst⟩ := ih hpos
      have hstep : minScan g (n + 1) =
          (fun acc c =>
            match acc with
            | none => some (g c, c)
            | some (md, mc) => if g c < md then some (g c, c) else some (md, mc))
            (minScan g n) n := by
        simp [minScan, List.range_succ]
      rw [hfold] at hstep
      by_cases hlt : g n < g j
      · refine ⟨n, by omega, ?_, ?_, ?_⟩
        · simpa [hlt] using hstep
        · intro i hi
          rcases Nat.lt_succ_iff_lt_or_eq.mp hi with hi' | hi'
          · exact le_of_lt (lt_of_lt_of_le hlt (hmin i hi'))
          · subst hi'; exact le_refl _
        · intro i hi
          exact lt_of_lt_of_le hlt (hmin i hi)
      · refine ⟨j, by omega, ?_, ?_, hfirst⟩
        · simpa [hlt] using hstep
        · intro i hi
          rcases Nat.lt_succ_iff_lt_or_eq.mp hi with hi' | hi'
          · exact hmin i hi'
          · subst hi'; exact le_of_not_lt hlt
/-- After scanning `0..n` with `n ≥ 1`, the `min_d` accumulator holds an
actual index, whatever the `single_closest` flag. -/
lemma minDScan_index (g : ℕ → ℚ) (n : ℕ) (hn : 0 < n) :
    ∃ j b, j < n ∧ minDScan g n = (some (g j, j), b) := by
  induction n with
  | zero => omega
  | succ n ih =>
    have hstep : minDScan g (n + 1) =
        (fun st c =>
          match st with
          | (none, _) => (some (g c, c), true)
          | (some (md, mc), single) =>
            if g c = md then (some (md, mc), false)
            else if g c < md then (some (g c, c), true)
            else (some (md, mc), single)) (minDScan g n) n := by
      simp [minDScan, List.range_succ]
    rcases Nat.eq_zero_or_pos n with hz | hpos
    · subst hz
      refine ⟨0, true, by omega, ?_⟩
      rfl
    · obtain ⟨j, b, hj, hfold⟩ := ih hpos
      rw [hfold] at hstep
      by_cases heq : g n = g j
      · exact ⟨j, false, by omega, by simpa [heq] using hstep⟩
      · by_cases hlt : g n < g j
        · exact ⟨n, true, by omega, by simpa [heq, hlt] using hstep⟩
        · exact ⟨j, b, by omega, by simpa [heq, hlt] using hstep⟩

/-- If some center has strictly smaller (squared) distance to `p` than
every other center index below `k`, the first-minimum scan of
`Centers::closest` returns exactly that center. -/
lemma closest_of_strict_min (cs : Centers k m) (p : Point m) (c : ℕ)
    (hc : c < k)
    (hstrict : ∀ i, i < k → i ≠ c → distSq p (cget cs c) < distSq p (cget cs i)) :
    cs.closest p = c := by
  obtain ⟨j, hj, hfold, hmin, _⟩ :=
    minScan_spec (fun i => distSq p (cget cs i)) k (by omega)
  have hjc : j = c := by
    by_contra hne
    have h1 := hstrict j hj hne
    have h2 := hmin c hc
    exact absurd (lt_of_lt_of_le h1 h2) (lt_irrefl _)
  rw [Centers.closest, hfold, hjc]

/-- The geometric core of the pruning test: if `c1` dominates `c2` over
`h` (strict inequality at the worst-case corner), then `c1` is strictly
closer than `c2` to every point of `h`. -/
lemma dominates_strict (cs : Centers k m) (c1 c2 : ℕ) (h : HyperRectangle m)
    (hd : dominates cs c1 c2 h = true) (p : Point m) (hp : h.containsP p) :
    distSq p (cget cs c1) < distSq p (cget cs c2) := by
  set a := cget cs c1 with ha
  set b := cget cs c2 with hb
  set w : Point m := fun d => if a d < b d then h.hi d else h.lo d with hw
  have hworst : distSq w a < distSq w b := by
    simpa [dominates, ← ha, ← hb, ← hw] using hd
  have key : distSq p a - distSq p b ≤ distSq w a - distSq w b := by
    rw [distSq, distSq, distSq, distSq, ← Finset.sum_sub_distrib,
        ← Finset.sum_sub_distrib]
    apply Finset.sum_le_sum
    intro d _
    have hpd := hp d
    by_cases hab : a d < b d
    · have hwd : w d = h.hi d := by simp [hw, hab]
      rw [hwd]
      nlinarith [hpd.2]
    · have hwd : w d = h.lo d := by simp [hw, hab]
      rw [hwd]
      push_neg at hab
      nlinarith [hpd.1]
  linarith

/-- C2 (helper): if `owner` returns `c`, every point inside the box has
`c` as its first-minimum closest center. -/
lemma owner_sound_aux (cs : Centers k m) (h : HyperRectangle m) (c : ℕ)
    (ho : owner cs h = some c) (p : Point m) (hp : h.containsP p) :
    cs.closest p = c := by
  rcases Nat.eq_zero_or_pos k with hk | hk
  · subst hk
    have hc : c = 0 := by
      simp [owner, min_d, minDScan] at ho
      omega
    subst hc
    simp [Centers.closest, minScan]
  · have hmd : min_d cs h = some c := by
      rcases hmde : min_d cs h with _ | c1
      · rw [owner, hmde] at ho
        simp at ho
      · rw [owner, hmde] at ho
        by_cases hall : (List.range k).all
            (fun c2 => c1 == c2 || dominates cs c1 c2 h)
        · simp [hall] at ho
          rw [ho]
        · simp [hall] at ho
    have hck : c < k := by
      obtain ⟨j, b, hj, hfold⟩ :=
        minDScan_index (fun i => h.distSq (cget cs i)) k hk
      rw [min_d, hfold] at hmd
      rcases b with _ | _
      · simp at hmd
      · simp at hmd
        omega
    have hall : ∀ c2, c2 < k → c2 ≠ c → dominates cs c c2 h = true := by
      rw [owner, hmd] at ho
      by_cases hall' : (List.range k).all
          (fun c2 => c == c2 || dominates cs c c2 h)
      · rw [List.all_eq_true] at hall'
        intro c2 hc2 hne
        have := hall' c2 (List.mem_range.mpr hc2)
        rcases Bool.or_eq_true_iff.mp this with heq | hd
        · exact absurd (beq_iff_eq.mp heq).symm hne
        · exact hd
      · simp [hall'] at ho
    apply closest_of_strict_min cs p c hck
    intro i hi hne
    exact dominates_strict cs c i h (hall i hi hne) p hp

/-- C2: if `Centers::owner(box)` returns `Some(c)` for a hyper-rectangle,
then for every point `p` inside the box (`lo d ≤ p d ≤ hi d` for all
dimensions), `Centers::closest(p)` returns exactly `c`, for every set of
`K` centers and every box. -/
theorem owner_soundness (cs : Centers k m) (h : HyperRectangle m) (c : ℕ)
    (p : Point m) (ho : owner cs h = some c) (hp : h.containsP p) :
    cs.closest p = c :=
  owner_sound_aux cs h c ho p hp

/-- Witness for C2 at the repository's own test case: box `[(0,0),(2,2)]`,
centers `[(-2.5,-2.5), (3,1)]`, whose owner is center `1`; the interior
point `(1,1)` is indeed assigned to center `1`. -/
theorem owner_soundness_witness :
    Centers.closest (![![-5/2, -5/2], ![3, 1]] : Centers 2 2) ![1, 1] = 1 :=
  owner_soundness (![![-5/2, -5/2], ![3, 1]] : Centers 2 2)
    (⟨![0, 0], ![2, 2]⟩ : HyperRectangle 2) 1 ![1, 1]
    (by with_unfolding_all decide) (by decide)

/-! ## Quickselect (src/quickselect.rs) -/

/-- `list[i]` on the working vector; out of range yields junk `0` (the
source would panic, which never happens on the verified paths). -/
def getP (xs : List (Point m)) (i : ℕ) : Point m := xs.getD i 0

/-- `list.swap(i, j)` from Rust's `Vec`. -/
def swapP (xs : List (Point m)) (i j : ℕ) : List (Point m) :=
  (xs.set i (getP xs j)).set j (getP xs i)

/-- The `for i in left..right` loop body of `partition`
(src/quickselect.rs): `cnt` iterations remain, `i` is the loop counter and
the state is the working vector together with `store_index`. -/
def lomuto (d : ℕ) (pv : ℚ) : ℕ → ℕ → List (Point m) × ℕ → List (Point m) × ℕ
  | 0, _, st => st
  | cnt + 1, i, (xs, s) =>
    if coord (getP xs i) d < pv then lomuto d pv cnt (i + 1) (swapP xs s i, s + 1)
    else lomuto d pv cnt (i + 1) (xs, s)

/-- `partition` from src/quickselect.rs (Lomuto scheme): swap the pivot to
`right`, sweep `left..right` moving elements strictly below the pivot value
to the front, swap the pivot into its sorted position, return the new
vector and that position. -/
def partition (xs : List (Point m)) (l r pivot d : ℕ) :
    List (Point m) × ℕ :=
  let pv := coord (getP xs pivot) d
  let xs1 := swapP xs pivot r
  let st := lomuto d pv (r - l) l (xs1, l)
  (swapP st.1 r st.2, st.2)

/-- The `loop` of `median` (src/quickselect.rs), with explicit fuel (the
source loop always terminates because the active range shrinks; the
theorems show fuel `points.len()` suffices).  `σ` is the stream of random
samples: `rand::seq::index::sample(rng, right - left, 1).index(0)` becomes
`σ 0 % (right - left)` and the stream advances. -/
def qsLoop (d q : ℕ) : ℕ → List (Point m) → ℕ → ℕ → (ℕ → ℕ) →
    Option (ℚ × (ℕ → ℕ))
  | 0, _, _, _, _ => none
  | fuel + 1, xs, l, r, σ =>
    if l = r then some (coord (getP xs l) d, σ)
    else
      let pivot := l + σ 0 % (r - l)
      let st := partition xs l r pivot d
      if q = st.2 then some (coord (getP st.1 q) d, fun n => σ (n + 1))
      else if q < st.2 then qsLoop d q fuel st.1 l (st.2 - 1) (fun n => σ (n + 1))
      else qsLoop d q fuel st.1 (st.2 + 1) r (fun n => σ (n + 1))

/-- `median` from src/quickselect.rs: quickselect for the rank
`(length - 1) / 2` on a working copy.  On the empty list the source
computes `list.len() - 1` on a `usize`, which underflows and panics:
modelled by `none`. -/
def median (points : List (Point m)) (d : ℕ) (σ : ℕ → ℕ) :
    Option (ℚ × (ℕ → ℕ)) :=
  match points with
  | [] => none
  | _ :: _ =>
    qsLoop d ((points.length - 1) / 2) points.length points 0
      (points.length - 1) σ

/-- The reference value of C5: sort the dimension-`d` coordinates and take
the element at index `(n - 1) / 2` (the lower median). -/
def medianSpec (points : List (Point m)) (d : ℕ) : ℚ :=
  (List.insertionSort (· ≤ ·) (points.map (fun p => coord p d))).getD
    ((points.length - 1) / 2) 0

lemma getP_eq_getElem {xs : List (Point m)} {i : ℕ} (h : i < xs.length) :
    getP xs i = xs[i] := by
  simp [getP, List.getD_eq_getElem?_getD, List.getElem?_eq_getElem h]

@[simp] lemma length_swapP (xs : List (Point m)) (i j : ℕ) :
    (swapP xs i j).length = xs.length := by
  simp [swapP]

lemma getP_swapP_fst {xs : List (Point m)} {i j : ℕ}
    (hi : i < xs.length) (hj : j < xs.length) :
    getP (swapP xs i j) i = getP xs j := by
  rcases eq_or_ne i j with rfl | hne
  · rw [getP_eq_getElem (by simpa using hi)]
    simp only [swapP]
    simp
  · rw [getP_eq_getElem (by simpa using hi)]
    simp only [swapP, getP_eq_getElem hi, getP_eq_getElem hj]
    rw [List.getElem_set_ne hne.symm]
    simp [hi]

lemma getP_swapP_snd {xs : List (Point m)} {i j : ℕ}
    (hi : i < xs.length) (hj : j < xs.length) :
    getP (swapP xs i j) j = getP xs i := by
  rw [getP_eq_getElem (by simpa using hj)]
  simp only [swapP, getP_eq_getElem hi, getP_eq_getElem hj]
  simp [hj]

lemma getP_swapP_other {xs : List (Point m)} {i j t : ℕ}
    (h1 : t ≠ i) (h2 : t ≠ j) :
    getP (swapP xs i j) t = getP xs t := by
  by_cases ht : t < xs.length
  · rw [getP_eq_getElem (by simpa using ht), getP_eq_getElem ht]
    simp only [swapP]
    rw [List.getElem_set_ne (Ne.symm h2), List.getElem_set_ne (Ne.symm h1)]
  · simp only [getP]
    rw [List.getD_eq_default, List.getD_eq_default]
    · omega
    · simp only [length_swapP]
      omega

lemma swapP_self {xs : List (Point m)} {i : ℕ} (hi : i < xs.length) :
    swapP xs i i = xs := by
  apply List.ext_getElem (by simp)
  intro n h1 h2
  rcases eq_or_ne n i with rfl | hn
  · rw [← getP_eq_getElem h2, ← @getP_eq_getElem m (swapP xs n n) n (by simpa using h2)]
    exact getP_swapP_fst hi hi
  · simp only [swapP]
    rw [List.getElem_set_ne (Ne.symm hn), List.getElem_set_ne (Ne.symm hn)]

lemma swapP_perm {xs : List (Point m)} {i j : ℕ}
    (hi : i < xs.length) (hj : j < xs.length) :
    List.Perm (swapP xs i j) xs := by
  rcases eq_or_ne i j with rfl | hne
  · rw [swapP_self hi]
  · rw [List.perm_iff_count]
    intro a
    have hcount1 : ∀ b, xs[i] = b → 1 ≤ xs.count b := by
      intro b hb
      have : b ∈ xs := hb ▸ List.getElem_mem hi
      exact List.count_pos_iff.mpr this
    simp only [swapP, getP_eq_getElem hi, getP_eq_getElem hj]
    rw [List.count_set _ _ _ _ (by simpa using hj), List.count_set _ _ _ _ hi]
    rw [List.getElem_set_ne (l := xs) hne]
    by_cases h1 : xs[i] = a <;> by_cases h2 : xs[j] = a
    · have c1 := hcount1 a h1
      simp only [h1, h2, beq_self_eq_true, if_true]
      omega
    · have c1 := hcount1 a h1
      simp only [beq_iff_eq, if_neg h2, if_pos h1]
      omega
    · simp only [beq_iff_eq, if_neg h1, if_pos h2]
      omega
    · simp only [beq_iff_eq, if_neg h1, if_neg h2]
      omega

/-- Invariant of the Lomuto sweep: starting from a state whose prefix
`[l, s)` is strictly below the pivot value and whose band `[s, i)` is not,
with everything outside `[l, i)` untouched, the loop ends with the same
shape at `i = r`. -/
lemma lomuto_spec (d : ℕ) (pv : ℚ) (l r : ℕ) (x0 : List (Point m))
    (hr : r < x0.length) :
    ∀ (cnt i s : ℕ) (xs : List (Point m)),
      xs.length = x0.length →
      l ≤ s → s ≤ i → i + cnt = r →
      (∀ t, t < x0.length → (t < l ∨ i ≤ t) → getP xs t = getP x0 t) →
      (∀ t, l ≤ t → t < s → coord (getP xs t) d < pv) →
      (∀ t, s ≤ t → t < i → ¬ coord (getP xs t) d < pv) →
      List.Perm xs x0 →
      (lomuto d pv cnt i (xs, s)).1.length = x0.length ∧
      l ≤ (lomuto d pv cnt i (xs, s)).2 ∧
      (lomuto d pv cnt i (xs, s)).2 ≤ r ∧
      (∀ t, t < x0.length → (t < l ∨ r ≤ t) →
        getP (lomuto d pv cnt i (xs, s)).1 t = getP x0 t) ∧
      (∀ t, l ≤ t → t < (lomuto d pv cnt i (xs, s)).2 →
        coord (getP (lomuto d pv cnt i (xs, s)).1 t) d < pv) ∧
      (∀ t, (lomuto d pv cnt i (xs, s)).2 ≤ t → t < r →
        ¬ coord (getP (lomuto d pv cnt i (xs, s)).1 t) d < pv) ∧
      List.Perm (lomuto d pv cnt i (xs, s)).1 x0 := by
  intro cnt
  induction cnt with
  | zero =>
    intro i s xs hlen hls hsi hir hout hbelow hband hperm
    have hi : i = r := by omega
    subst hi
    simp only [lomuto]
    exact ⟨hlen, hls, hsi, fun t ht hc => hout t ht (by omega),
      hbelow, hband, hperm⟩
  | succ cnt ih =>
    intro i s xs hlen hls hsi hir hout hbelow hband hperm
    have hiR : i < r := by omega
    have hiL : i < xs.length := by omega
    have hsL : s < xs.length := by omega
    simp only [lomuto]
    by_cases hc : coord (getP xs i) d < pv
    · rw [if_pos hc]
      apply ih (i + 1) (s + 1) (swapP xs s i)
      · simp [hlen]
      · omega
      · omega
      · omega
      · intro t ht hcond
        rw [getP_swapP_other (by omega) (by omega)]
        exact hout t ht (by omega)
      · intro t h1 h2
        rcases Nat.lt_succ_iff_lt_or_eq.mp h2 with h2' | h2'
        · rw [getP_swapP_other (by omega) (by omega)]
          exact hbelow t h1 h2'
        · subst h2'
          rw [getP_swapP_fst hsL hiL]
          exact hc
      · intro t h1 h2
        rcases Nat.lt_succ_iff_lt_or_eq.mp h2 with h2' | h2'
        · rw [getP_swapP_other (by omega) (by omega)]
          exact hband t (by omega) h2'
        · subst h2'
          rcases eq_or_ne s t with hst | hst
          · omega
          · rw [getP_swapP_snd hsL hiL]
            exact hband s (by omega) (by omega)
      · exact (swapP_perm hsL hiL).trans hperm
    · rw [if_neg hc]
      apply ih (i + 1) s xs hlen hls (by omega) (by omega)
      · intro t ht hcond
        exact hout t ht (by omega)
      · exact hbelow
      · intro t h1 h2
        rcases Nat.lt_succ_iff_lt_or_eq.mp h2 with h2' | h2'
        · exact hband t h1 h2'
        · subst h2'
          exact hc
      · exact hperm

/-- Specification of `partition`: the returned vector is a permutation of
the input that agrees with it outside `[l, r]`, and the returned index
`spi ∈ [l, r]` carries the pivot value, with everything in `[l, spi)`
strictly below it and everything in `(spi, r]` not below it. -/
lemma partition_spec (xs : List (Point m)) (l r pivot d : ℕ)
    (hl : l ≤ pivot) (hpr : pivot ≤ r) (hr : r < xs.length) :
    (partition xs l r pivot d).1.length = xs.length ∧
    l ≤ (partition xs l r pivot d).2 ∧
    (partition xs l r pivot d).2 ≤ r ∧
    List.Perm (partition xs l r pivot d).1 xs ∧
    (∀ t, t < xs.length → (t < l ∨ r < t) →
      getP (partition xs l r pivot d).1 t = getP xs t) ∧
    coord (getP (partition xs l r pivot d).1 (partition xs l r pivot d).2) d
      = coord (getP xs pivot) d ∧
    (∀ t, l ≤ t → t < (partition xs l r pivot d).2 →
      coord (getP (partition xs l r pivot d).1 t) d < coord (getP xs pivot) d) ∧
    (∀ t, (partition xs l r pivot d).2 < t → t ≤ r →
      ¬ coord (getP (partition xs l r pivot d).1 t) d < coord (getP xs pivot) d) := by
  have hlr : l ≤ r := hl.trans hpr
  set pv := coord (getP xs pivot) d with hpv
  set x0 := swapP xs pivot r with hx0
  have hlen0 : x0.length = xs.length := by simp [hx0]
  have hr0 : r < x0.length := by omega
  set st := lomuto d pv (r - l) l (x0, l) with hst
  have hpart : partition xs l r pivot d = (swapP st.1 r st.2, st.2) := rfl
  obtain ⟨Wlen, Wl, Wr, Wout, Wbelow, Wband, Wperm⟩ :=
    lomuto_spec d pv l r x0 hr0 (r - l) l l x0 rfl (le_refl l) (le_refl l)
      (by omega) (fun t ht hc => rfl) (fun t h1 h2 => absurd h2 (by omega))
      (fun t h1 h2 => absurd h2 (by omega)) (List.Perm.refl x0)
  rw [← hst] at Wlen Wl Wr Wout Wbelow Wband Wperm
  have hrS : r < st.1.length := by omega
  have hsS : st.2 < st.1.length := by omega
  have hx0r : getP x0 r = getP xs pivot := getP_swapP_snd (by omega) hr
  have hstR : getP st.1 r = getP xs pivot := by
    rw [Wout r (by omega) (by omega), hx0r]
  rw [hpart]
  refine ⟨?_, Wl, Wr, ?_, ?_, ?_, ?_, ?_⟩
  · simp [Wlen, hlen0]
  · exact ((swapP_perm hrS hsS).trans Wperm).trans (swapP_perm (by omega) hr)
  · intro t ht hcond
    rw [getP_swapP_other (by omega) (by omega),
      Wout t (by omega) (by omega), hx0]
    exact getP_swapP_other (by omega) (by omega)
  · rcases eq_or_ne st.2 r with hsr | hsr
    · rw [hsr, getP_swapP_fst hrS hrS, hstR]
    · have : getP (swapP st.1 r st.2) st.2 = getP st.1 r :=
        getP_swapP_snd hrS hsS
      rw [this, hstR]
  · intro t h1 h2
    rw [getP_swapP_other (by omega) (by omega)]
    exact Wbelow t h1 h2
  · intro t h1 h2
    rcases eq_or_ne t r with htr | htr
    · subst htr
      rw [getP_swapP_fst hrS hsS]
      exact Wband st.2 (le_refl _) (by omega)
    · rw [getP_swapP_other htr (by omega)]
      exact Wband t (by omega) (by omega)

lemma mem_take_iff {α : Type _} {M : List α} {a : ℕ} {x : α} :
    x ∈ M.take a ↔ ∃ t, t < a ∧ ∃ (ht : t < M.length), M[t] = x := by
  constructor
  · intro hx
    obtain ⟨n, hn, hnx⟩ := List.mem_iff_getElem.mp hx
    have hn' : n < a ∧ n < M.length := by
      have := hn
      simp only [List.length_take] at this
      omega
    exact ⟨n, hn'.1, hn'.2, by simpa using hnx⟩
  · rintro ⟨t, h1, ht, rfl⟩
    apply List.mem_iff_getElem.mpr
    refine ⟨t, by simp [List.length_take]; omega, ?_⟩
    simp

lemma mem_drop_iff {α : Type _} {M : List α} {b : ℕ} {x : α} :
    x ∈ M.drop b ↔ ∃ t, b ≤ t ∧ ∃ (ht : t < M.length), M[t] = x := by
  constructor
  · intro hx
    obtain ⟨n, hn, hnx⟩ := List.mem_iff_getElem.mp hx
    have hn' : b + n < M.length := by
      have := hn
      simp only [List.length_drop] at this
      omega
    refine ⟨b + n, by omega, hn', ?_⟩
    rw [← hnx]
    simp
  · rintro ⟨t, h1, ht, rfl⟩
    apply List.mem_iff_getElem.mpr
    refine ⟨t - b, by simp [List.length_drop]; omega, ?_⟩
    have : b + (t - b) = t := by omega
    simp [this]

/-- Membership in the window `[a, b)` of a list, as positions. -/
lemma mem_middle_iff {α : Type _} {M : List α} {a b : ℕ} {x : α}
    (hb : b ≤ M.length) :
    x ∈ (M.take b).drop a ↔
      ∃ t, a ≤ t ∧ t < b ∧ ∃ (ht : t < M.length), M[t] = x := by
  rw [mem_drop_iff]
  constructor
  · rintro ⟨t, h1, ht, rfl⟩
    have ht' : t < b ∧ t < M.length := by
      have := ht
      simp only [List.length_take] at this
      omega
    exact ⟨t, h1, ht'.1, ht'.2, by simp⟩
  · rintro ⟨t, h1, h2, ht, rfl⟩
    refine ⟨t, h1, by simp [List.length_take]; omega, ?_⟩
    simp

/-- Split a count into the segments `[0, a)`, `[a, b)` and `[b, n)`. -/
lemma countP_seg3 {α : Type _} (M : List α) (p : α → Bool) (a b : ℕ)
    (hab : a ≤ b) :
    M.countP p = (M.take a).countP p + ((M.take b).drop a).countP p +
      (M.drop b).countP p := by
  have h1 : M = M.take b ++ M.drop b := (List.take_append_drop _ _).symm
  have h2 : M.take b = M.take a ++ (M.take b).drop a := by
    conv_lhs => rw [← List.take_append_drop a (M.take b)]
    rw [List.take_take, min_eq_left hab]
  conv_lhs => rw [h1, h2]
  rw [List.countP_append, List.countP_append]

/-- Split a window `[a, c)` into `[a, b)` and `[b, c)`. -/
lemma middle_split {α : Type _} {M : List α} {a b c : ℕ} (hab : a ≤ b)
    (hbc : b ≤ c) (hc : c ≤ M.length) :
    (M.take c).drop a = (M.take b).drop a ++ (M.take c).drop b := by
  have h1 : M.take c = M.take b ++ (M.take c).drop b := by
    conv_lhs => rw [← List.take_append_drop b (M.take c)]
    rw [List.take_take, min_eq_left hbc]
  conv_lhs => rw [h1]
  rw [List.drop_append_eq_append_drop]
  have hlb : (M.take b).length = b := by
    simp [List.length_take]
    omega
  rw [hlb]
  have : a - b = 0 := by omega
  rw [this, List.drop_zero]

lemma take_eq_of_getElem_eq {α : Type _} {A B : List α}
    (hlen : A.length = B.length) {l : ℕ}
    (h : ∀ t (ht : t < B.length) (ht2 : t < A.length), t < l → A[t] = B[t]) :
    A.take l = B.take l := by
  apply List.ext_getElem (by simp [hlen])
  intro n h1 h2
  have hn : n < l ∧ n < B.length := by
    have := h2
    simp only [List.length_take] at this
    omega
  simp only [List.getElem_take]
  exact h n hn.2 (by omega) hn.1

lemma drop_eq_of_getElem_eq {α : Type _} {A B : List α}
    (hlen : A.length = B.length) {b : ℕ}
    (h : ∀ t (ht : t < B.length) (ht2 : t < A.length), b ≤ t → A[t] = B[t]) :
    A.drop b = B.drop b := by
  apply List.ext_getElem (by simp [hlen])
  intro n h1 h2
  have hn : b + n < B.length := by
    have := h2
    simp only [List.length_drop] at this
    omega
  simp only [List.getElem_drop]
  exact h (b + n) hn (by omega) (by omega)

lemma drop_perm_of_take_eq {α : Type _} {A B : List α} {l : ℕ}
    (hperm : List.Perm A B) (htake : A.take l = B.take l) :
    List.Perm (A.drop l) (B.drop l) := by
  have hA : A = A.take l ++ A.drop l := (List.take_append_drop _ _).symm
  have hB : B = B.take l ++ B.drop l := (List.take_append_drop _ _).symm
  rw [hA, hB, htake] at hperm
  exact (List.perm_append_left_iff _).mp hperm

/-- Permutations that fix the prefix `[0, l)` and the suffix `[b, n)`
positionwise permute the middle window. -/
lemma middle_perm {α : Type _} {A B : List α} {l b : ℕ}
    (hperm : List.Perm A B) (hlb : l ≤ b)
    (htake : A.take l = B.take l) (hdrop : A.drop b = B.drop b) :
    List.Perm ((A.take b).drop l) ((B.take b).drop l) := by
  have h2A : A.take b = A.take l ++ (A.take b).drop l := by
    conv_lhs => rw [← List.take_append_drop l (A.take b)]
    rw [List.take_take, min_eq_left hlb]
  have h2B : B.take b = B.take l ++ (B.take b).drop l := by
    conv_lhs => rw [← List.take_append_drop l (B.take b)]
    rw [List.take_take, min_eq_left hlb]
  have hA : A = A.take l ++ ((A.take b).drop l ++ A.drop b) := by
    conv_rhs => rw [← List.append_assoc, ← h2A, List.take_append_drop]
  have hB : B = B.take l ++ ((B.take b).drop l ++ B.drop b) := by
    conv_rhs => rw [← List.append_assoc, ← h2B, List.take_append_drop]
  rw [hA, hB, htake, hdrop] at hperm
  have hmid := (List.perm_append_left_iff _).mp hperm
  exact (List.perm_append_right_iff _).mp hmid

/-- Order-statistic characterisation: if at most `q` elements of `C` are
strictly below `v` and more than `q` are at most `v`, then the sorted copy
of `C` carries `v` at index `q`. -/
lemma sorted_getD_of_counts (C : List ℚ) (q : ℕ) (v : ℚ) (hq : q < C.length)
    (hlt : C.countP (fun x => decide (x < v)) ≤ q)
    (hle : q < C.countP (fun x => decide (x ≤ v))) :
    (List.insertionSort (· ≤ ·) C).getD q 0 = v := by
  set S := List.insertionSort (· ≤ ·) C with hS
  have hsorted : S.Sorted (· ≤ ·) := List.sorted_insertionSort _ _
  have hperm : List.Perm S C := List.perm_insertionSort _ _
  have hlen : S.length = C.length := hperm.length_eq
  have hqS : q < S.length := by omega
  have hv : S.getD q 0 = S[q] := by
    simp [List.getD_eq_getElem?_getD, List.getElem?_eq_getElem hqS]
  rcases lt_trichotomy S[q] v with hcase | hcase | hcase
  · exfalso
    have hcnt : q + 1 ≤ S.countP (fun x => decide (x < v)) := by
      have hdecomp : S = S.take (q + 1) ++ S.drop (q + 1) := (List.take_append_drop _ _).symm
      have hall : (S.take (q + 1)).countP (fun x => decide (x < v)) =
          (S.take (q + 1)).length := by
        rw [List.countP_eq_length]
        intro a ha
        obtain ⟨n, hn, hna⟩ := List.mem_iff_getElem.mp ha
        have hn' : n < q + 1 := by
          have := hn
          simp only [List.length_take] at this
          omega
        have hnS : n < S.length := by
          have := hn
          simp only [List.length_take] at this
          omega
        have : S[n] ≤ S[q] := by
          have := List.Sorted.rel_get_of_le (r := (· ≤ ·)) hsorted
            (a := ⟨n, hnS⟩) (b := ⟨q, hqS⟩) (by simpa using Nat.lt_succ_iff.mp hn')
          simpa using this
        have hna' : a = S[n] := by
          rw [← hna]
          simp
        rw [hna']
        simp only [decide_eq_true_eq]
        exact lt_of_le_of_lt this hcase
      have hlen2 : (S.take (q + 1)).length = q + 1 := by
        simp [List.length_take]
        omega
      calc q + 1 = (S.take (q + 1)).countP (fun x => decide (x < v)) := by
            rw [hall, hlen2]
        _ ≤ S.countP (fun x => decide (x < v)) := by
            conv_rhs => rw [hdecomp]
            rw [List.countP_append]
            omega
    have := hperm.countP_eq (fun x => decide (x < v))
    omega
  · rw [hv, hcase]
  · exfalso
    have hcnt : S.countP (fun x => decide (x ≤ v)) ≤ q := by
      have hdecomp : S = S.take q ++ S.drop q := (List.take_append_drop _ _).symm
      have hzero : (S.drop q).countP (fun x => decide (x ≤ v)) = 0 := by
        rw [List.countP_eq_zero]
        intro a ha
        obtain ⟨n, hn, hna⟩ := List.mem_iff_getElem.mp ha
        have hnS : q + n < S.length := by
          have := hn
          simp only [List.length_drop] at this
          omega
        have hget : (S.drop q)[n] = S[q + n] := by
          simp
        have : S[q] ≤ S[q + n] := by
          have := List.Sorted.rel_get_of_le (r := (· ≤ ·)) hsorted
            (a := ⟨q, hqS⟩) (b := ⟨q + n, hnS⟩) (by simp)
          simpa using this
        have hna' : a = S[q + n] := by
          rw [← hna, hget]
        rw [hna']
        simp only [decide_eq_true_eq, not_le]
        exact lt_of_lt_of_le hcase this
      have hper : S.countP (fun x => decide (x ≤ v)) =
          (S.take q).countP (fun x => decide (x ≤ v)) +
            (S.drop q).countP (fun x => decide (x ≤ v)) := by
        conv_lhs => rw [hdecomp]
        rw [List.countP_append]
      have hble : (S.take q).countP (fun x => decide (x ≤ v)) ≤ q := by
        calc (S.take q).countP (fun x => decide (x ≤ v)) ≤ (S.take q).length :=
              List.countP_le_length _
          _ ≤ q := by simp [List.length_take]
      omega
    have := hperm.countP_eq (fun x => decide (x ≤ v))
    omega

/-- Main invariant proof for the quickselect loop: while positions outside
the active window `[l, r]` are settled (prefix below the window, suffix
above it), the loop returns the rank-`q` order statistic of the original
coordinate list `C0`. -/
lemma qsLoop_spec (d : ℕ) (C0 : List ℚ) (q : ℕ) :
    ∀ (fuel : ℕ) (xs : List (Point m)) (l r : ℕ) (σ : ℕ → ℕ),
      List.Perm (xs.map (fun p => coord p d)) C0 →
      l ≤ q → q ≤ r → r < xs.length → r - l < fuel →
      (∀ x y, x ∈ (xs.map (fun p => coord p d)).take l →
        y ∈ (xs.map (fun p => coord p d)).drop l → x ≤ y) →
      (∀ x y, x ∈ ((xs.map (fun p => coord p d)).take (r + 1)).drop l →
        y ∈ (xs.map (fun p => coord p d)).drop (r + 1) → x ≤ y) →
      (qsLoop d q fuel xs l r σ).map Prod.fst =
        some ((List.insertionSort (· ≤ ·) C0).getD q 0) := by
  intro fuel
  induction fuel with
  | zero =>
    intro xs l r σ _ _ _ _ hfuel _ _
    omega
  | succ fuel ih =>
    intro xs l r σ hperm hlq hqr hr hfuel hB hC
    set M := xs.map (fun p => coord p d) with hM
    have hlenM : M.length = xs.length := by simp [hM]
    have hlenC : M.length = C0.length := hperm.length_eq
    have hMget : ∀ t (ht : t < M.length),
        M[t] = coord (getP xs t) d := by
      intro t ht
      rw [getP_eq_getElem (show t < xs.length by omega)]
      simp [hM]
    by_cases hlr : l = r
    · subst hlr
      have hql : q = l := by omega
      subst hql
      have hqM : q < M.length := by omega
      set v := coord (getP xs q) d with hv
      have hvM : M[q] = v := hMget q hqM
      have hdropCons : M.drop q = M[q] :: M.drop (q + 1) :=
        List.drop_eq_getElem_cons hqM
      have hvDrop : v ∈ M.drop q := by
        rw [hdropCons, hvM]
        exact List.mem_cons_self _ _
      have hltC : M.countP (fun x => decide (x < v)) ≤ q := by
        have hsplit : M.countP (fun x => decide (x < v)) =
            (M.take q).countP (fun x => decide (x < v)) +
              (M.drop q).countP (fun x => decide (x < v)) := by
          conv_lhs => rw [← List.take_append_drop q M]
          rw [List.countP_append]
        have h1 : (M.take q).countP (fun x => decide (x < v)) ≤ q := by
          calc (M.take q).countP (fun x => decide (x < v)) ≤
              (M.take q).length := List.countP_le_length _
            _ ≤ q := by simp [List.length_take]
        have h2 : (M.drop q).countP (fun x => decide (x < v)) = 0 := by
          rw [List.countP_eq_zero]
          intro y hy
          rw [hdropCons] at hy
          rcases List.mem_cons.mp hy with hy1 | hy1
          · rw [hy1, hvM]
            simp
          · have hvMid : v ∈ (M.take (q + 1)).drop q :=
              (mem_middle_iff (by omega)).mpr ⟨q, le_refl q, by omega, by omega, hvM⟩
            have := hC v y hvMid hy1
            simp only [decide_eq_true_eq]
            exact not_lt.mpr this
        omega
      have hleC : q < M.countP (fun x => decide (x ≤ v)) := by
        have hsplit : M.countP (fun x => decide (x ≤ v)) =
            (M.take q).countP (fun x => decide (x ≤ v)) +
              (M.drop q).countP (fun x => decide (x ≤ v)) := by
          conv_lhs => rw [← List.take_append_drop q M]
          rw [List.countP_append]
        have h1 : (M.take q).countP (fun x => decide (x ≤ v)) = q := by
          have hall : ∀ x ∈ M.take q, decide (x ≤ v) = true := by
            intro x hx
            simp only [decide_eq_true_eq]
            exact hB x v hx hvDrop
          rw [List.countP_eq_length.mpr hall]
          simp [List.length_take]
          omega
        have h2 : 1 ≤ (M.drop q).countP (fun x => decide (x ≤ v)) := by
          rw [hdropCons, hvM]
          rw [List.countP_cons_of_pos]
          · omega
          · simp
        omega
      have hres := sorted_getD_of_counts C0 q v (by omega)
        (by rw [← hperm.countP_eq]; exact hltC)
        (by rw [← hperm.countP_eq]; exact hleC)
      simp only [qsLoop, if_pos rfl]
      rw [hres]
      rfl
    · have hlltr : l < r := by omega
      set pivot := l + σ 0 % (r - l) with hpiv
      have hpl : l ≤ pivot := Nat.le_add_right _ _
      have hpr : pivot < r := by
        have hmod : σ 0 % (r - l) < r - l := Nat.mod_lt _ (by omega)
        omega
      set st := partition xs l r pivot d with hst
      obtain ⟨Plen, Pl, Pr, Pperm, Pout, Pval, Pbelow, Pband⟩ :=
        partition_spec xs l r pivot d hpl (by omega) hr
      rw [← hst] at Plen Pl Pr Pperm Pout Pval Pbelow Pband
      set pv := coord (getP xs pivot) d with hpv
      set M2 := st.1.map (fun p => coord p d) with hM2
      have hlen2 : M2.length = M.length := by simp [hM2, hM, Plen]
      have hlenS : st.1.length = xs.length := Plen
      have hM2len : M2.length = st.1.length := by simp [hM2]
      have hMlenRaw : (List.map (fun p => coord p d) xs).length = xs.length :=
        by simp
      have hM2lenRaw :
          (List.map (fun p => coord p d) st.1).length = st.1.length := by simp
      have hM2get : ∀ t (ht : t < M2.length),
          M2[t] = coord (getP st.1 t) d := by
        intro t ht
        rw [getP_eq_getElem (show t < st.1.length by omega)]
        simp [hM2]
      have hagree : ∀ t (ht : t < M.length) (ht2 : t < M2.length),
          (t < l ∨ r < t) → M2[t] = M[t] := by
        intro t ht ht2 hcond
        rw [hM2get t ht2, hMget t ht, Pout t (by omega) hcond]
      have hMperm2 : List.Perm M2 M := Pperm.map _
      have hpermC : List.Perm M2 C0 := hMperm2.trans hperm
      have htakeEq : M2.take l = M.take l :=
        take_eq_of_getElem_eq (by omega)
          (fun t ht ht2 hlt => hagree t ht ht2 (Or.inl hlt))
      have hdropEq : M2.drop (r + 1) = M.drop (r + 1) :=
        drop_eq_of_getElem_eq (by omega)
          (fun t ht ht2 hge => hagree t ht ht2 (Or.inr (by omega)))
      have hmidPerm : List.Perm ((M2.take (r + 1)).drop l)
          ((M.take (r + 1)).drop l) :=
        middle_perm hMperm2 (by omega) htakeEq hdropEq
      have hpivM : pivot < M.length := by omega
      have hpvM : M[pivot] = pv := hMget pivot hpivM
      have hpvDropL : pv ∈ M.drop l :=
        mem_drop_iff.mpr ⟨pivot, hpl, hpivM, hpvM⟩
      have hpvMid : pv ∈ (M.take (r + 1)).drop l :=
        (mem_middle_iff (by omega)).mpr ⟨pivot, hpl, by omega, hpivM, hpvM⟩
      have hCpv : ∀ y ∈ M.drop (r + 1), pv ≤ y :=
        fun y hy => hC pv y hpvMid hy
      have hM2below : ∀ t, l ≤ t → t < st.2 → ∀ (ht : t < M2.length),
          M2[t] < pv := by
        intro t h1 h2 ht
        rw [hM2get t ht]
        exact Pbelow t h1 h2
      have hspiM2 : st.2 < M2.length := by omega
      have hM2spi : M2[st.2] = pv := by
        rw [hM2get st.2 hspiM2]
        exact Pval
      have hM2band : ∀ t, st.2 < t → t ≤ r → ∀ (ht : t < M2.length),
          ¬ M2[t] < pv := by
        intro t h1 h2 ht
        rw [hM2get t ht]
        exact Pband t h1 h2
      have hstep : qsLoop d q (fuel + 1) xs l r σ =
          if q = st.2 then some (coord (getP st.1 q) d, fun n => σ (n + 1))
          else if q < st.2 then
            qsLoop d q fuel st.1 l (st.2 - 1) (fun n => σ (n + 1))
          else
            qsLoop d q fuel st.1 (st.2 + 1) r (fun n => σ (n + 1)) := by
        simp only [qsLoop, if_neg hlr]
      by_cases hqspi : q = st.2
      · have hvq : coord (getP st.1 q) d = pv := by
          rw [hqspi]
          exact Pval
        have hltC : M2.countP (fun x => decide (x < pv)) ≤ q := by
          rw [countP_seg3 M2 _ l (r + 1) (by omega)]
          have h1 : (M2.take l).countP (fun x => decide (x < pv)) ≤ l := by
            calc (M2.take l).countP (fun x => decide (x < pv)) ≤
                (M2.take l).length := List.countP_le_length _
              _ ≤ l := by simp [List.length_take]
          have hmidsplit : (M2.take (r + 1)).drop l =
              (M2.take st.2).drop l ++ (M2.take (r + 1)).drop st.2 :=
            middle_split Pl (by omega) (by omega)
          have h2 : ((M2.take (r + 1)).drop l).countP
              (fun x => decide (x < pv)) ≤ st.2 - l := by
            rw [hmidsplit, List.countP_append]
            have h2a : ((M2.take st.2).drop l).countP
                (fun x => decide (x < pv)) ≤ st.2 - l := by
              calc ((M2.take st.2).drop l).countP (fun x => decide (x < pv)) ≤
                  ((M2.take st.2).drop l).length := List.countP_le_length _
                _ ≤ st.2 - l := by
                    simp [List.length_drop, List.length_take]
                    omega
            have h2b : ((M2.take (r + 1)).drop st.2).countP
                (fun x => decide (x < pv)) = 0 := by
              rw [List.countP_eq_zero]
              intro y hy
              obtain ⟨t, ht1, ht2, ht, rfl⟩ :=
                (mem_middle_iff (by omega)).mp hy
              simp only [decide_eq_true_eq]
              rcases eq_or_lt_of_le ht1 with ht1' | ht1'
              · subst ht1'
                rw [hM2spi]
                exact lt_irrefl pv
              · exact fun hcon => (hM2band t ht1' (by omega) ht) hcon
            omega
          have h3 : (M2.drop (r + 1)).countP
              (fun x => decide (x < pv)) = 0 := by
            rw [hdropEq, List.countP_eq_zero]
            intro y hy
            have := hCpv y hy
            simp only [decide_eq_true_eq]
            exact not_lt.mpr this
          omega
        have hleC : q < M2.countP (fun x => decide (x ≤ pv)) := by
          rw [countP_seg3 M2 _ l (r + 1) (by omega)]
          have h1 : (M2.take l).countP (fun x => decide (x ≤ pv)) = l := by
            have hall : ∀ x ∈ M2.take l, decide (x ≤ pv) = true := by
              intro x hx
              rw [htakeEq] at hx
              simp only [decide_eq_true_eq]
              exact hB x pv hx hpvDropL
            rw [List.countP_eq_length.mpr hall]
            simp [List.length_take]
            omega
          have hmidsplit : (M2.take (r + 1)).drop l =
              (M2.take st.2).drop l ++ (M2.take (r + 1)).drop st.2 :=
            middle_split Pl (by omega) (by omega)
          have h2 : st.2 - l + 1 ≤ ((M2.take (r + 1)).drop l).countP
              (fun x => decide (x ≤ pv)) := by
            rw [hmidsplit, List.countP_append]
            have h2a : ((M2.take st.2).drop l).countP
                (fun x => decide (x ≤ pv)) = st.2 - l := by
              have hall : ∀ x ∈ (M2.take st.2).drop l,
                  decide (x ≤ pv) = true := by
                intro x hx
                obtain ⟨t, ht1, ht2, ht, rfl⟩ :=
                  (mem_middle_iff (by omega)).mp hx
                simp only [decide_eq_true_eq]
                exact le_of_lt (hM2below t ht1 ht2 ht)
              rw [List.countP_eq_length.mpr hall]
              simp [List.length_drop, List.length_take]
              omega
            have h2b : 1 ≤ ((M2.take (r + 1)).drop st.2).countP
                (fun x => decide (x ≤ pv)) := by
              have hpos : 0 < ((M2.take (r + 1)).drop st.2).countP
                  (fun x => decide (x ≤ pv)) :=
                List.countP_pos_iff.mpr ⟨pv, (mem_middle_iff (by omega)).mpr
                  ⟨st.2, le_refl _, by omega, hspiM2, hM2spi⟩, by simp⟩
              omega
            omega
          omega
        have hres := sorted_getD_of_counts C0 q pv (by omega)
          (by rw [← hpermC.countP_eq]; exact hltC)
          (by rw [← hpermC.countP_eq]; exact hleC)
        rw [hstep, if_pos hqspi]
        have hmap : Option.map Prod.fst
            (some (coord (getP st.1 q) d, fun n => σ (n + 1))) =
            some (coord (getP st.1 q) d) := rfl
        rw [hmap, hvq, hres]
      · by_cases hqlt : q < st.2
        · have hspi1 : l < st.2 := by omega
          rw [hstep, if_neg hqspi, if_pos hqlt]
          apply ih st.1 l (st.2 - 1) (fun n => σ (n + 1)) hpermC hlq
            (by omega) (by omega) (by omega)
          · intro x y hx hy
            rw [htakeEq] at hx
            have hdperm := drop_perm_of_take_eq hMperm2 htakeEq
            exact hB x y hx (hdperm.mem_iff.mp hy)
          · intro x y hx hy
            have hs1 : st.2 - 1 + 1 = st.2 := by omega
            rw [hs1] at hx hy
            obtain ⟨t, ht1, ht2, ht, rfl⟩ :=
              (mem_middle_iff (by omega)).mp hx
            have hxlt : M2[t] < pv := hM2below t ht1 ht2 ht
            obtain ⟨u, hu1, hu, rfl⟩ := mem_drop_iff.mp hy
            rcases eq_or_lt_of_le hu1 with hu' | hu'
            · subst hu'
              rw [hM2spi]
              exact le_of_lt hxlt
            · rcases le_or_lt u r with hur | hur
              · have := hM2band u hu' hur hu
                have hpvle : pv ≤ M2[u] := not_lt.mp this
                exact le_trans (le_of_lt hxlt) hpvle
              · have huM : u < M.length := by omega
                have hyM : M2[u] = M[u] :=
                  hagree u huM hu (Or.inr hur)
                have hyDrop : M[u] ∈ M.drop (r + 1) :=
                  mem_drop_iff.mpr ⟨u, by omega, huM, rfl⟩
                rw [hyM]
                exact le_trans (le_of_lt hxlt) (hCpv _ hyDrop)
        · have hqgt : st.2 < q := by omega
          rw [hstep, if_neg hqspi, if_neg hqlt]
          apply ih st.1 (st.2 + 1) r (fun n => σ (n + 1)) hpermC
            (by omega) hqr (by omega) (by omega)
          · intro x y hx hy
            obtain ⟨t, ht1, ht, rfl⟩ := mem_take_iff.mp hx
            have hxle : M2[t] ≤ pv := by
              rcases lt_or_le t l with htl | htl
              · have htM : t < M.length := by omega
                have hxM : M2[t] = M[t] :=
                  hagree t htM ht (Or.inl htl)
                have hxTake : M[t] ∈ M.take l :=
                  mem_take_iff.mpr ⟨t, htl, htM, rfl⟩
                rw [hxM]
                exact hB _ pv hxTake hpvDropL
              · rcases lt_or_le t st.2 with hts | hts
                · exact le_of_lt (hM2below t htl hts ht)
                · have hts' : st.2 = t := by omega
                  subst hts'
                  rw [hM2spi]
            obtain ⟨u, hu1, hu, rfl⟩ := mem_drop_iff.mp hy
            have hpvy : pv ≤ M2[u] := by
              rcases le_or_lt u r with hur | hur
              · exact not_lt.mp (hM2band u (by omega) hur hu)
              · have huM : u < M.length := by omega
                have hyM : M2[u] = M[u] :=
                  hagree u huM hu (Or.inr hur)
                have hyDrop : M[u] ∈ M.drop (r + 1) :=
                  mem_drop_iff.mpr ⟨u, by omega, huM, rfl⟩
                rw [hyM]
                exact hCpv _ hyDrop
            exact le_trans hxle hpvy
          · intro x y hx hy
            rw [hdropEq] at hy
            obtain ⟨t, ht1, ht2, ht, rfl⟩ :=
              (mem_middle_iff (by omega)).mp hx
            have hxFull : M2[t] ∈ (M2.take (r + 1)).drop l :=
              (mem_middle_iff (by omega)).mpr ⟨t, by omega, ht2, ht, rfl⟩
            exact hC _ y (hmidPerm.mem_iff.mp hxFull) hy

/-- C5 (helper): `median` returns the lower median of the dimension-`d`
coordinates for every pivot stream. -/
lemma median_correct_aux (points : List (Point m)) (d : ℕ) (σ : ℕ → ℕ)
    (hne : points ≠ []) :
    (median points d σ).map Prod.fst = some (medianSpec points d) := by
  obtain ⟨p0, rest, hpts⟩ := List.exists_cons_of_ne_nil hne
  have hlen : 0 < points.length := by
    rw [hpts]
    simp
  have hmed : median points d σ =
      qsLoop d ((points.length - 1) / 2) points.length points 0
        (points.length - 1) σ := by
    rw [hpts]
    rfl
  have hmap : (points.map (fun p => coord p d)).length = points.length := by
    simp
  rw [hmed]
  have := qsLoop_spec d (points.map (fun p => coord p d))
    ((points.length - 1) / 2) points.length points 0 (points.length - 1) σ
    (List.Perm.refl _) (Nat.zero_le _)
    (Nat.le_trans (Nat.div_le_self _ _) (le_refl _)) (by omega) (by omega)
    (fun x y hx hy => absurd hx (by simp))
    (fun x y hx hy => by
      rw [List.drop_eq_nil_of_le (by omega)] at hy
      exact absurd hy (List.not_mem_nil y))
  rw [this]
  rfl

/-- C5: for every non-empty point set, every dimension `d` and every
random stream (covering every random seed), `median(points, d, rng)`
terminates and returns the value obtained by fully sorting the
dimension-`d` coordinates and taking the element at index `(n - 1) / 2`
(the lower median for even `n`). -/
theorem median_correct (points : List (Point m)) (d : ℕ) (σ : ℕ → ℕ)
    (hne : points ≠ []) :
    (median points d σ).map Prod.fst = some (medianSpec points d) :=
  median_correct_aux points d σ hne

/-- Witness for C5: the repository's own even-length test list
`[1, 2, 5, 8, 9, 6, 4, 10, 7, 3]` has lower median `5`, and `median`
returns it (stream `fun n => n` here; the theorem covers all streams). -/
theorem median_correct_witness :
    (median ([![1], ![2], ![5], ![8], ![9], ![6], ![4], ![10], ![7], ![3]] :
        List (Point 1)) 0 (fun n => n)).map Prod.fst =
      some (medianSpec ([![1], ![2], ![5], ![8], ![9], ![6], ![4], ![10],
        ![7], ![3]] : List (Point 1)) 0) ∧
    medianSpec ([![1], ![2], ![5], ![8], ![9], ![6], ![4], ![10], ![7],
      ![3]] : List (Point 1)) 0 = 5 :=
  ⟨median_correct _ 0 (fun n => n) (by decide),
   by with_unfolding_all decide⟩

/-- C10 (helper): the median value is the `d`-coordinate of an input
point. -/
lemma median_mem_aux (points : List (Point m)) (d : ℕ) (σ : ℕ → ℕ)
    (v : ℚ) (σ2 : ℕ → ℕ) (hmed : median points d σ = some (v, σ2)) :
    ∃ p ∈ points, coord p d = v := by
  have hne : points ≠ [] := by
    intro hnil
    rw [hnil] at hmed
    simp [median] at hmed
  have haux := median_correct_aux points d σ hne
  rw [hmed] at haux
  simp only [Option.map] at haux
  have hv : v = medianSpec points d := by
    exact Option.some.inj haux
  have hlenS : (List.insertionSort (· ≤ ·)
      (points.map (fun p => coord p d))).length = points.length := by
    rw [List.length_insertionSort]
    simp
  have hlen : 0 < points.length := by
    cases points with
    | nil => exact absurd rfl hne
    | cons a l => simp
  have hk : (points.length - 1) / 2 < (List.insertionSort (· ≤ ·)
      (points.map (fun p => coord p d))).length := by
    rw [hlenS]
    have := Nat.div_le_self (points.length - 1) 2
    omega
  have hvS : v ∈ List.insertionSort (· ≤ ·)
      (points.map (fun p => coord p d)) := by
    rw [hv, medianSpec]
    rw [List.getD_eq_getElem?_getD, List.getElem?_eq_getElem hk]
    exact List.getElem_mem hk
  have hvmem : v ∈ points.map (fun p => coord p d) :=
    (List.perm_insertionSort _ _).subset hvS
  obtain ⟨p, hp, hpv⟩ := List.mem_map.mp hvmem
  exact ⟨p, hp, hpv⟩

/-- C10: for every non-empty point list, every dimension and every rng
stream, the value returned by `median` is the `d`-coordinate of some input
point; consequently the left partition of `Tree::split_points`
(points with coordinate ≤ median) is non-empty. -/
theorem median_value_is_attained (points : List (Point m)) (d : ℕ)
    (σ : ℕ → ℕ) (v : ℚ) (σ2 : ℕ → ℕ)
    (hmed : median points d σ = some (v, σ2)) :
    (∃ p ∈ points, coord p d = v) ∧
      points.filter (fun p => decide (coord p d ≤ v)) ≠ [] := by
  obtain ⟨p, hp, hpv⟩ := median_mem_aux points d σ v σ2 hmed
  refine ⟨⟨p, hp, hpv⟩, ?_⟩
  apply List.ne_nil_of_mem (a := p)
  exact List.mem_filter.mpr ⟨hp, by simp [hpv]⟩

/-- Witness for C10 on the list `[3, 1, 2]` (median `2`). -/
theorem median_value_is_attained_witness :
    (∃ p ∈ ([![3], ![1], ![2]] : List (Point 1)), coord p 0 = 2) ∧
      ([![3], ![1], ![2]] : List (Point 1)).filter
        (fun p => decide (coord p 0 ≤ 2)) ≠ [] :=
  median_value_is_attained ([![3], ![1], ![2]] : List (Point 1)) 0
    (fun _ => 0) 2 (fun n => (fun _ => 0) (n + 1))
    (by with_unfolding_all rfl)

/-! ## The mrkd-tree (src/mrkd.rs) -/

/-- `Tree<M>` and `Node<M>` from src/mrkd.rs, flattened into a single
inductive: every node carries its hyper-rectangle and the cached
`number_of_points` and `center_of_mass`, and is either a leaf holding one
point or a non-leaf holding the split dimension, split value and two
children.  The cached `euclidean_norm_sum` involves `sqrt` and is read by
no operation any claim covers, so it is omitted from the embedding. -/
inductive Tree (m : ℕ) : Type where
  | leaf (h : HyperRectangle m) (number_of_points : ℕ)
      (center_of_mass : Point m) (p : Point m)
  | node (h : HyperRectangle m) (number_of_points : ℕ)
      (center_of_mass : Point m) (d : ℕ) (v : ℚ) (l r : Tree m)
  deriving DecidableEq

/-- The node's hyper-rectangle (`tree.h`). -/
def Tree.hrect : Tree m → HyperRectangle m
  | .leaf h _ _ _ => h
  | .node h _ _ _ _ _ _ => h

/-- The node's cached point count (`tree.number_of_points`). -/
def Tree.nPoints : Tree m → ℕ
  | .leaf _ n _ _ => n
  | .node _ n _ _ _ _ _ => n

/-- The node's cached center of mass (`tree.center_of_mass`). -/
def Tree.com : Tree m → Point m
  | .leaf _ _ c _ => c
  | .node _ _ c _ _ _ _ => c

/-- `Node::get_points` / `Tree::get_points` from src/mrkd.rs: the
depth-first point sequence (a leaf yields its point, a non-leaf chains
left then right). -/
def Tree.get_points : Tree m → List (Point m)
  | .leaf _ _ _ p => [p]
  | .node _ _ _ _ _ l r => l.get_points ++ r.get_points

/-- The point-division loop of `Tree::split_points` (src/mrkd.rs):
`coordinate ≤ v` goes left, the rest right — ties go left. -/
def divide (points : List (Point m)) (d : ℕ) (v : ℚ) :
    List (Point m) × List (Point m) :=
  (points.filter (fun p => decide (coord p d ≤ v)),
   points.filter (fun p => ! decide (coord p d ≤ v)))

/-- `Tree::make_node` together with `Tree::split_points` from src/mrkd.rs,
with explicit fuel bounding the recursion depth (the Rust recursion can
diverge or panic on degenerate inputs, see
`tree_construction_fails_on_duplicate_points`): compute the cached
aggregates over `points`, build a leaf if a single point remains,
otherwise compute the median in dimension `d`, split the box and the
points, and recurse with dimension `(d + 1) % M`, threading the rng stream
left to right.  `none` models a panic or exhausted fuel. -/
def make_node : ℕ → List (Point m) → HyperRectangle m → ℕ → (ℕ → ℕ) →
    Option (Tree m × (ℕ → ℕ))
  | 0, _, _, _, _ => none
  | fuel + 1, points, h, d, σ =>
    let n := points.length
    let com := divN (psum points) n
    if n = 1 then
      some (.leaf h n com (getP points 0), σ)
    else
      match median points d σ with
      | none => none
      | some (v, σ1) =>
        let pr := divide points d v
        let hs := HyperRectangle.split h d v
        match make_node fuel pr.1 hs.1 ((d + 1) % m) σ1 with
        | none => none
        | some (lt, σ2) =>
          match make_node fuel pr.2 hs.2 ((d + 1) % m) σ2 with
          | none => none
          | some (rt, σ3) => some (.node h n com d v lt rt, σ3)

/-- `Tree::initialize` from src/mrkd.rs (named `initTree` here because the
source's name is a Lean keyword): compute the tight bounding box of all
points with `get_range`, then build the tree from dimension `0`. -/
def initTree (points : List (Point m)) (σ : ℕ → ℕ) (fuel : ℕ) :
    Option (Tree m × (ℕ → ℕ)) :=
  make_node fuel points ⟨(get_range points).1, (get_range points).2⟩ 0 σ

lemma foldl_add_shift (a : Point m) (l : List (Point m)) :
    l.foldl (· + ·) a = a + l.foldl (· + ·) 0 := by
  induction l generalizing a with
  | nil => simp
  | cons x xs ih =>
    simp only [List.foldl_cons]
    rw [ih (a + x), ih (0 + x), zero_add, add_assoc]

lemma psum_nil : psum ([] : List (Point m)) = 0 := rfl

lemma psum_cons (x : Point m) (l : List (Point m)) :
    psum (x :: l) = x + psum l := by
  simp only [psum, List.foldl_cons]
  rw [foldl_add_shift, zero_add]

lemma psum_append (a b : List (Point m)) :
    psum (a ++ b) = psum a + psum b := by
  induction a with
  | nil => simp [psum_nil]
  | cons x xs ih =>
    rw [List.cons_append, psum_cons, psum_cons, ih, add_assoc]

lemma psum_perm {a b : List (Point m)} (hp : List.Perm a b) :
    psum a = psum b := by
  induction hp with
  | nil => rfl
  | cons x _ ih => rw [psum_cons, psum_cons, ih]
  | swap x y l => rw [psum_cons, psum_cons, psum_cons, psum_cons,
      ← add_assoc, ← add_assoc, add_comm y x]
  | trans _ _ ih1 ih2 => rw [ih1, ih2]

lemma length_one_eq {points : List (Point m)} (h : points.length = 1) :
    points = [getP points 0] := by
  match points, h with
  | [p], _ => rfl

/-- Dissects one successful step of `make_node`: either a leaf was built
from a single point, or the median succeeded and both recursive calls
succeeded. -/
lemma make_node_succ_cases {fuel : ℕ} {points : List (Point m)}
    {h : HyperRectangle m} {d : ℕ} {σ : ℕ → ℕ} {t : Tree m} {σ2 : ℕ → ℕ}
    (hmk : make_node (fuel + 1) points h d σ = some (t, σ2)) :
    (points.length = 1 ∧
      t = Tree.leaf h points.length (divN (psum points) points.length)
        (getP points 0) ∧ σ2 = σ) ∨
    (points.length ≠ 1 ∧ ∃ v σ1 ltree σa rtree,
      median points d σ = some (v, σ1) ∧
      make_node fuel (divide points d v).1 (HyperRectangle.split h d v).1
        ((d + 1) % m) σ1 = some (ltree, σa) ∧
      make_node fuel (divide points d v).2 (HyperRectangle.split h d v).2
        ((d + 1) % m) σa = some (rtree, σ2) ∧
      t = Tree.node h points.length (divN (psum points) points.length)
        d v ltree rtree) := by
  simp only [make_node] at hmk
  by_cases hn : points.length = 1
  · rw [if_pos hn] at hmk
    left
    obtain ⟨h1, h2⟩ := Prod.mk.injEq .. ▸ Option.some.inj hmk
    exact ⟨hn, h1.symm, h2.symm⟩
  · rw [if_neg hn] at hmk
    right
    refine ⟨hn, ?_⟩
    cases hmed : median points d σ with
    | none =>
      rw [hmed] at hmk
      exact absurd hmk (by simp)
    | some vσ =>
      obtain ⟨v, σ1⟩ := vσ
      simp only [hmed] at hmk
      cases hmkl : make_node fuel (divide points d v).1
          (HyperRectangle.split h d v).1 ((d + 1) % m) σ1 with
      | none =>
        simp only [hmkl] at hmk
        exact absurd hmk (by simp)
      | some lσ =>
        obtain ⟨ltree, σa⟩ := lσ
        simp only [hmkl] at hmk
        cases hmkr : make_node fuel (divide points d v).2
            (HyperRectangle.split h d v).2 ((d + 1) % m) σa with
        | none =>
          simp only [hmkr] at hmk
          exact absurd hmk (by simp)
        | some rσ =>
          obtain ⟨rtree, σ3⟩ := rσ
          simp only [hmkr, Option.some.injEq, Prod.mk.injEq] at hmk
          obtain ⟨h1, h2⟩ := hmk
          exact ⟨v, σ1, ltree, σa, rtree, rfl, hmkl, by rw [← h2]; exact hmkr,
            h1.symm⟩

/-- C3 (helper): the depth-first point sequence of every successfully
built subtree is a permutation of the points it was built from. -/
lemma make_node_perm :
    ∀ (fuel : ℕ) (points : List (Point m)) (h : HyperRectangle m) (d : ℕ)
      (σ : ℕ → ℕ) (t : Tree m) (σ2 : ℕ → ℕ),
      make_node fuel points h d σ = some (t, σ2) →
      List.Perm t.get_points points := by
  intro fuel
  induction fuel with
  | zero =>
    intro points h d σ t σ2 hmk
    exact absurd hmk (by simp [make_node])
  | succ fuel ih =>
    intro points h d σ t σ2 hmk
    rcases make_node_succ_cases hmk with ⟨hn, ht, _⟩ | ⟨hn, v, σ1, ltree, σa,
        rtree, hmed, hmkl, hmkr, ht⟩
    · rw [ht]
      simp only [Tree.get_points]
      rw [← length_one_eq hn]
    · rw [ht]
      simp only [Tree.get_points]
      have hl := ih _ _ _ _ _ _ hmkl
      have hr := ih _ _ _ _ _ _ hmkr
      exact (hl.append hr).trans (List.filter_append_perm _ points)

/-- C3: for every input point set from which `Tree::initialize` succeeds
in building a tree, the multiset of points reachable through the tree's
depth-first point sequence (`get_points`) is exactly the input multiset —
no loss, no duplication — including inputs whose points share coordinates
(partition ties go to the left subtree). -/
theorem tree_completeness (points : List (Point m)) (σ : ℕ → ℕ) (fuel : ℕ)
    (t : Tree m) (σ2 : ℕ → ℕ)
    (hbuild : initTree points σ fuel = some (t, σ2)) :
    List.Perm t.get_points points :=
  make_node_perm fuel points _ 0 σ t σ2 hbuild

/-- Witness for C3 on the two-point set `{0, 2}`: the built tree's
depth-first sequence is a permutation of the input.  The input shares the
second coordinate in the 2-D variant; here the 1-D set suffices. -/
theorem tree_completeness_witness :
    List.Perm
      (((initTree ([![0], ![2]] : List (Point 1)) (fun _ => 0) 3).getD
        (Tree.leaf ⟨0, 0⟩ 0 0 0, id)).1.get_points)
      ([![0], ![2]] : List (Point 1)) :=
  tree_completeness ([![0], ![2]] : List (Point 1)) (fun _ => 0) 3
    ((initTree ([![0], ![2]] : List (Point 1)) (fun _ => 0) 3).getD
      (Tree.leaf ⟨0, 0⟩ 0 0 0, id)).1
    ((initTree ([![0], ![2]] : List (Point 1)) (fun _ => 0) 3).getD
      (Tree.leaf ⟨0, 0⟩ 0 0 0, id)).2
    (by with_unfolding_all rfl)

/-- C6's per-node aggregate invariant: every node's cached
`number_of_points` is its subtree's leaf count (the length of its
depth-first point sequence) and its cached `center_of_mass` is the
arithmetic mean of its subtree's points. -/
def Tree.aggOk : Tree m → Prop
  | .leaf _ n c p => n = 1 ∧ c = divN (psum [p]) 1
  | .node _ n c _ _ lt rt =>
      n = (lt.get_points ++ rt.get_points).length ∧
      c = divN (psum (lt.get_points ++ rt.get_points)) n ∧
      lt.aggOk ∧ rt.aggOk

/-- C6 (helper): `make_node` always computes correct cached aggregates,
for leaves and non-leaves alike. -/
lemma make_node_agg :
    ∀ (fuel : ℕ) (points : List (Point m)) (h : HyperRectangle m) (d : ℕ)
      (σ : ℕ → ℕ) (t : Tree m) (σ2 : ℕ → ℕ),
      make_node fuel points h d σ = some (t, σ2) → t.aggOk := by
  intro fuel
  induction fuel with
  | zero =>
    intro points h d σ t σ2 hmk
    exact absurd hmk (by simp [make_node])
  | succ fuel ih =>
    intro points h d σ t σ2 hmk
    rcases make_node_succ_cases hmk with ⟨hn, ht, _⟩ | ⟨hn, v, σ1, ltree, σa,
        rtree, hmed, hmkl, hmkr, ht⟩
    · rw [ht]
      simp only [Tree.aggOk]
      refine ⟨hn, ?_⟩
      rw [hn, ← length_one_eq hn]
    · rw [ht]
      simp only [Tree.aggOk]
      have hperm : List.Perm (ltree.get_points ++ rtree.get_points) points :=
        ((make_node_perm _ _ _ _ _ _ _ hmkl).append
          (make_node_perm _ _ _ _ _ _ _ hmkr)).trans
          (List.filter_append_perm _ points)
      refine ⟨hperm.length_eq.symm, ?_, ih _ _ _ _ _ _ hmkl, ih _ _ _ _ _ _ hmkr⟩
      rw [psum_perm hperm]

/-- C6: in every tree produced by `Tree::initialize`, every node's
`number_of_points` equals its subtree's leaf count and its
`center_of_mass` equals the arithmetic mean of its subtree's points —
the cached aggregates are computed at every node, leaf or not. -/
theorem aggregate_correctness (points : List (Point m)) (σ : ℕ → ℕ)
    (fuel : ℕ) (t : Tree m) (σ2 : ℕ → ℕ)
    (hbuild : initTree points σ fuel = some (t, σ2)) : t.aggOk :=
  make_node_agg fuel points _ 0 σ t σ2 hbuild

/-- Witness for C6 on the two-point set `{0, 2}`. -/
theorem aggregate_correctness_witness :
    (((initTree ([![0], ![2]] : List (Point 1)) (fun _ => 0) 3).getD
      (Tree.leaf ⟨0, 0⟩ 0 0 0, id)).1).aggOk :=
  aggregate_correctness ([![0], ![2]] : List (Point 1)) (fun _ => 0) 3
    ((initTree ([![0], ![2]] : List (Point 1)) (fun _ => 0) 3).getD
      (Tree.leaf ⟨0, 0⟩ 0 0 0, id)).1
    ((initTree ([![0], ![2]] : List (Point 1)) (fun _ => 0) 3).getD
      (Tree.leaf ⟨0, 0⟩ 0 0 0, id)).2
    (by with_unfolding_all rfl)

lemma coord_eq {p : Point m} {e : Fin m} {d : ℕ} (he : (e : ℕ) = d) :
    coord p d = p e := by
  subst he
  simp [coord]

lemma containsP_mono {h1 h2 : HyperRectangle m} {p : Point m}
    (hp : h1.containsP p) (hsub : h1.insideB h2) : h2.containsP p :=
  fun e => ⟨le_trans (hsub e).1 (hp e).1, le_trans (hp e).2 (hsub e).2⟩

lemma foldl_min_le (c : ℚ) (cs : List ℚ) : ∀ x ∈ c :: cs, cs.foldl min c ≤ x := by
  induction cs generalizing c with
  | nil =>
    intro x hx
    rcases List.mem_singleton.mp hx with rfl
    exact le_refl _
  | cons b bs ih =>
    intro x hx
    rcases List.mem_cons.mp hx with rfl | hx'
    · exact le_trans (ih (min x b) (min x b) (List.mem_cons_self _ _))
        (min_le_left _ _)
    · rcases List.mem_cons.mp hx' with rfl | hx''
      · exact le_trans (ih (min c x) (min c x) (List.mem_cons_self _ _))
          (min_le_right _ _)
      · exact ih (min c b) x (List.mem_cons_of_mem _ hx'')

lemma le_foldl_max (c : ℚ) (cs : List ℚ) : ∀ x ∈ c :: cs, x ≤ cs.foldl max c := by
  induction cs generalizing c with
  | nil =>
    intro x hx
    rcases List.mem_singleton.mp hx with rfl
    exact le_refl _
  | cons b bs ih =>
    intro x hx
    rcases List.mem_cons.mp hx with rfl | hx'
    · exact le_trans (le_max_left _ _)
        (ih (max x b) (max x b) (List.mem_cons_self _ _))
    · rcases List.mem_cons.mp hx' with rfl | hx''
      · exact le_trans (le_max_right _ _)
          (ih (max c x) (max c x) (List.mem_cons_self _ _))
      · exact ih (max c b) x (List.mem_cons_of_mem _ hx'')

lemma foldl_min_mem (c : ℚ) (cs : List ℚ) : cs.foldl min c ∈ c :: cs := by
  induction cs generalizing c with
  | nil => exact List.mem_singleton.mpr rfl
  | cons b bs ih =>
    have := ih (min c b)
    rcases List.mem_cons.mp this with hmem | hmem
    · rcases min_choice c b with hcb | hcb
      · exact List.mem_cons.mpr (Or.inl (by rw [List.foldl_cons, hmem, hcb]))
      · apply List.mem_cons_of_mem
        exact List.mem_cons.mpr (Or.inl (by rw [List.foldl_cons, hmem, hcb]))
    · exact List.mem_cons_of_mem _ (List.mem_cons_of_mem _ hmem)

lemma foldl_max_mem (c : ℚ) (cs : List ℚ) : cs.foldl max c ∈ c :: cs := by
  induction cs generalizing c with
  | nil => exact List.mem_singleton.mpr rfl
  | cons b bs ih =>
    have := ih (max c b)
    rcases List.mem_cons.mp this with hmem | hmem
    · rcases max_choice c b with hcb | hcb
      · exact List.mem_cons.mpr (Or.inl (by rw [List.foldl_cons, hmem, hcb]))
      · apply List.mem_cons_of_mem
        exact List.mem_cons.mpr (Or.inl (by rw [List.foldl_cons, hmem, hcb]))
    · exact List.mem_cons_of_mem _ (List.mem_cons_of_mem _ hmem)

/-- `get_range` produces a box containing every input point. -/
lemma get_range_contains (points : List (Point m)) :
    ∀ p ∈ points,
      HyperRectangle.containsP ⟨(get_range points).1, (get_range points).2⟩
        p := by
  intro p hp e
  cases points with
  | nil => exact absurd hp (List.not_mem_nil p)
  | cons q rest =>
    have hpe : p e ∈ q e :: rest.map (fun r => r e) := by
      rcases List.mem_cons.mp hp with rfl | hp'
      · exact List.mem_cons_self _ _
      · exact List.mem_cons_of_mem _ (List.mem_map_of_mem _ hp')
    constructor
    · show (match (q :: rest).map (fun r => r e) with
        | [] => 0
        | c :: cs => cs.foldl min c) ≤ p e
      simp only [List.map_cons]
      exact foldl_min_le (q e) (rest.map (fun r => r e)) (p e) hpe
    · show p e ≤ (match (q :: rest).map (fun r => r e) with
        | [] => 0
        | c :: cs => cs.foldl max c)
      simp only [List.map_cons]
      exact le_foldl_max (q e) (rest.map (fun r => r e)) (p e) hpe

/-- `get_range` attains its bounds: each corner coordinate is the
coordinate of some input point. -/
lemma get_range_tight (points : List (Point m)) (hne : points ≠ []) :
    ∀ e : Fin m, (∃ p ∈ points, (get_range points).1 e = p e) ∧
      (∃ p ∈ points, (get_range points).2 e = p e) := by
  intro e
  cases points with
  | nil => exact absurd rfl hne
  | cons q rest =>
    have hminmem := foldl_min_mem (q e) (rest.map (fun r => r e))
    have hmaxmem := foldl_max_mem (q e) (rest.map (fun r => r e))
    constructor
    · rcases List.mem_cons.mp hminmem with hm | hm
      · exact ⟨q, List.mem_cons_self _ _, by
          show (match (q :: rest).map (fun r => r e) with
            | [] => 0
            | c :: cs => cs.foldl min c) = q e
          simpa using hm⟩
      · obtain ⟨p, hp, hpe⟩ := List.mem_map.mp hm
        exact ⟨p, List.mem_cons_of_mem _ hp, by
          show (match (q :: rest).map (fun r => r e) with
            | [] => 0
            | c :: cs => cs.foldl min c) = p e
          simpa using hpe.symm⟩
    · rcases List.mem_cons.mp hmaxmem with hm | hm
      · exact ⟨q, List.mem_cons_self _ _, by
          show (match (q :: rest).map (fun r => r e) with
            | [] => 0
            | c :: cs => cs.foldl max c) = q e
          simpa using hm⟩
      · obtain ⟨p, hp, hpe⟩ := List.mem_map.mp hm
        exact ⟨p, List.mem_cons_of_mem _ hp, by
          show (match (q :: rest).map (fun r => r e) with
            | [] => 0
            | c :: cs => cs.foldl max c) = p e
          simpa using hpe.symm⟩

/-- C8's per-node bounding invariant: every node's box contains all points
of its subtree, and each child's box lies inside its parent's box. -/
def Tree.boxesOk : Tree m → Prop
  | .leaf h _ _ p => h.containsP p
  | .node h _ _ _ _ lt rt =>
      (∀ p ∈ lt.get_points ++ rt.get_points, h.containsP p) ∧
      lt.hrect.insideB h ∧ rt.hrect.insideB h ∧ lt.boxesOk ∧ rt.boxesOk

/-- C8 (helper): `make_node` keeps points inside the boxes and nests the
children's boxes inside the parent's whenever all input points lie in the
node's box. -/
lemma make_node_boxes :
    ∀ (fuel : ℕ) (points : List (Point m)) (h : HyperRectangle m) (d : ℕ)
      (σ : ℕ → ℕ) (t : Tree m) (σ2 : ℕ → ℕ),
      make_node fuel points h d σ = some (t, σ2) →
      (∀ p ∈ points, h.containsP p) →
      t.boxesOk ∧ t.hrect = h := by
  intro fuel
  induction fuel with
  | zero =>
    intro points h d σ t σ2 hmk
    exact absurd hmk (by simp [make_node])
  | succ fuel ih =>
    intro points h d σ t σ2 hmk hin
    rcases make_node_succ_cases hmk with ⟨hn, ht, _⟩ | ⟨hn, v, σ1, ltree, σa,
        rtree, hmed, hmkl, hmkr, ht⟩
    · subst ht
      refine ⟨?_, rfl⟩
      show h.containsP (getP points 0)
      apply hin
      rw [length_one_eq hn]
      exact List.mem_singleton.mpr rfl
    · subst ht
      obtain ⟨pstar, hpstar, hpstarv⟩ := median_mem_aux points d σ v σ1 hmed
      have hin1 : ∀ p ∈ (divide points d v).1,
          (HyperRectangle.split h d v).1.containsP p := by
        intro p hp
        obtain ⟨hpp, hple⟩ := List.mem_filter.mp hp
        have hple' : coord p d ≤ v := by simpa using hple
        intro e
        refine ⟨(hin p hpp e).1, ?_⟩
        show p e ≤ setCoord h.hi d v e
        rw [setCoord]
        by_cases he : (e : ℕ) = d
        · rw [if_pos he, ← coord_eq (p := p) he]
          exact hple'
        · rw [if_neg he]
          exact (hin p hpp e).2
      have hin2 : ∀ p ∈ (divide points d v).2,
          (HyperRectangle.split h d v).2.containsP p := by
        intro p hp
        obtain ⟨hpp, hpgt⟩ := List.mem_filter.mp hp
        have hpgt' : v < coord p d := by
          simp only [Bool.not_eq_true', decide_eq_false_iff_not, not_le] at hpgt
          exact hpgt
        intro e
        refine ⟨?_, (hin p hpp e).2⟩
        show setCoord h.lo d v e ≤ p e
        rw [setCoord]
        by_cases he : (e : ℕ) = d
        · rw [if_pos he, ← coord_eq (p := p) he]
          exact le_of_lt hpgt'
        · rw [if_neg he]
          exact (hin p hpp e).1
      have hsub1 : (HyperRectangle.split h d v).1.insideB h := by
        intro e
        refine ⟨le_refl _, ?_⟩
        show setCoord h.hi d v e ≤ h.hi e
        rw [setCoord]
        by_cases he : (e : ℕ) = d
        · rw [if_pos he]
          calc v = coord pstar d := hpstarv.symm
            _ = pstar e := coord_eq he
            _ ≤ h.hi e := (hin pstar hpstar e).2
        · rw [if_neg he]
      have hsub2 : (HyperRectangle.split h d v).2.insideB h := by
        intro e
        refine ⟨?_, le_refl _⟩
        show h.lo e ≤ setCoord h.lo d v e
        rw [setCoord]
        by_cases he : (e : ℕ) = d
        · rw [if_pos he]
          calc h.lo e ≤ pstar e := (hin pstar hpstar e).1
            _ = coord pstar d := (coord_eq he).symm
            _ = v := hpstarv
        · rw [if_neg he]
      obtain ⟨hbl, hhl⟩ := ih _ _ _ _ _ _ hmkl hin1
      obtain ⟨hbr, hhr⟩ := ih _ _ _ _ _ _ hmkr hin2
      refine ⟨⟨?_, ?_, ?_, hbl, hbr⟩, rfl⟩
      · intro p hp
        rcases List.mem_append.mp hp with hp' | hp'
        · have hpdiv : p ∈ (divide points d v).1 :=
            (make_node_perm _ _ _ _ _ _ _ hmkl).subset hp'
          exact containsP_mono (hin1 p hpdiv) hsub1
        · have hpdiv : p ∈ (divide points d v).2 :=
            (make_node_perm _ _ _ _ _ _ _ hmkr).subset hp'
          exact containsP_mono (hin2 p hpdiv) hsub2
      · rw [hhl]
        exact hsub1
      · rw [hhr]
        exact hsub2

/-- C8: in every tree produced by `Tree::initialize` over a non-empty
point set, every node's bounding hyper-rectangle contains every point of
that node's subtree, and each child's box lies inside its parent's box. -/
theorem bounding_correctness (points : List (Point m)) (σ : ℕ → ℕ)
    (fuel : ℕ) (t : Tree m) (σ2 : ℕ → ℕ)
    (hbuild : initTree points σ fuel = some (t, σ2)) : t.boxesOk :=
  (make_node_boxes fuel points _ 0 σ t σ2 hbuild (get_range_contains points)).1

/-- Witness for C8 on the two-point set `{0, 2}`. -/
theorem bounding_correctness_witness :
    (((initTree ([![0], ![2]] : List (Point 1)) (fun _ => 0) 3).getD
      (Tree.leaf ⟨0, 0⟩ 0 0 0, id)).1).boxesOk :=
  bounding_correctness ([![0], ![2]] : List (Point 1)) (fun _ => 0) 3
    ((initTree ([![0], ![2]] : List (Point 1)) (fun _ => 0) 3).getD
      (Tree.leaf ⟨0, 0⟩ 0 0 0, id)).1
    ((initTree ([![0], ![2]] : List (Point 1)) (fun _ => 0) 3).getD
      (Tree.leaf ⟨0, 0⟩ 0 0 0, id)).2
    (by with_unfolding_all rfl)

/-- The right child of a non-leaf tree node, for stating the C7
counterexample. -/
def rightChild : Tree m → Option (Tree m)
  | .node _ _ _ _ _ _ rt => some rt
  | .leaf _ _ _ _ => none

/-- C7 counterexample: building the tree over the 1-D points `{0, 2}`
splits at the median `0`; the right child holds only the point `2`, yet
its box (obtained from `HyperRectangle::split`, not recomputed) is
`[0, 2]`, whose min corner `0` differs from the minimum coordinate `2` of
the subtree's points — so descendant boxes are not tight. -/
theorem child_box_not_tight_cex :
    ((initTree ([![0], ![2]] : List (Point 1)) (fun _ => 0) 3).bind
        (fun ts => rightChild ts.1)).map
      (fun rt => (rt.get_points, rt.hrect.lo ⟨0, Nat.zero_lt_one⟩)) =
      some ([![2]], 0) ∧
    (![2] : Point 1) ⟨0, Nat.zero_lt_one⟩ = 2 ∧ (0 : ℚ) ≠ 2 := by
  refine ⟨by with_unfolding_all rfl, rfl, by norm_num⟩

/-- C7 as amended: the ROOT node's bounding hyper-rectangle is the
tightest box containing all points (per dimension, its corners equal the
minimum and maximum coordinates and bound every point), and every node's
box contains all points of its subtree — but descendant boxes arise from
`HyperRectangle::split` and need not be tight (see
`child_box_not_tight_cex`). -/
theorem root_box_tight (points : List (Point m)) (σ : ℕ → ℕ) (fuel : ℕ)
    (t : Tree m) (σ2 : ℕ → ℕ) (hne : points ≠ [])
    (hbuild : initTree points σ fuel = some (t, σ2)) :
    (∀ e : Fin m,
      (∃ p ∈ points, t.hrect.lo e = p e) ∧
      (∀ p ∈ points, t.hrect.lo e ≤ p e) ∧
      (∃ p ∈ points, t.hrect.hi e = p e) ∧
      (∀ p ∈ points, p e ≤ t.hrect.hi e)) ∧
    t.boxesOk := by
  obtain ⟨hbox, hrect⟩ :=
    make_node_boxes fuel points _ 0 σ t σ2 hbuild (get_range_contains points)
  refine ⟨fun e => ?_, hbox⟩
  obtain ⟨hlo, hhi⟩ := get_range_tight points hne e
  rw [hrect]
  exact ⟨hlo, fun p hp => (get_range_contains points p hp e).1, hhi,
    fun p hp => (get_range_contains points p hp e).2⟩

/-- Witness for C7 (amended) on the two-point set `{0, 2}`. -/
theorem root_box_tight_witness :
    (∀ e : Fin 1,
      (∃ p ∈ ([![0], ![2]] : List (Point 1)),
        (((initTree ([![0], ![2]] : List (Point 1)) (fun _ => 0) 3).getD
          (Tree.leaf ⟨0, 0⟩ 0 0 0, id)).1).hrect.lo e = p e) ∧
      (∀ p ∈ ([![0], ![2]] : List (Point 1)),
        (((initTree ([![0], ![2]] : List (Point 1)) (fun _ => 0) 3).getD
          (Tree.leaf ⟨0, 0⟩ 0 0 0, id)).1).hrect.lo e ≤ p e) ∧
      (∃ p ∈ ([![0], ![2]] : List (Point 1)),
        (((initTree ([![0], ![2]] : List (Point 1)) (fun _ => 0) 3).getD
          (Tree.leaf ⟨0, 0⟩ 0 0 0, id)).1).hrect.hi e = p e) ∧
      (∀ p ∈ ([![0], ![2]] : List (Point 1)),
        p e ≤ (((initTree ([![0], ![2]] : List (Point 1)) (fun _ => 0) 3).getD
          (Tree.leaf ⟨0, 0⟩ 0 0 0, id)).1).hrect.hi e)) ∧
    (((initTree ([![0], ![2]] : List (Point 1)) (fun _ => 0) 3).getD
      (Tree.leaf ⟨0, 0⟩ 0 0 0, id)).1).boxesOk :=
  root_box_tight ([![0], ![2]] : List (Point 1)) (fun _ => 0) 3
    ((initTree ([![0], ![2]] : List (Point 1)) (fun _ => 0) 3).getD
      (Tree.leaf ⟨0, 0⟩ 0 0 0, id)).1
    ((initTree ([![0], ![2]] : List (Point 1)) (fun _ => 0) 3).getD
      (Tree.leaf ⟨0, 0⟩ 0 0 0, id)).2
    (by decide) (by with_unfolding_all rfl)

/-- C4 (helper): on two identical 1-D points every split sends both points
left (ties go left), so the recursion never shrinks and `make_node` fails
for every fuel — matching the Rust code, which recurses forever on the
left half (and would panic inside `median` on the empty right half:
`length - 1` underflows on `usize`). -/
lemma make_node_dup :
    ∀ (fuel : ℕ) (h : HyperRectangle 1) (σ : ℕ → ℕ),
      make_node fuel [(![1] : Point 1), ![1]] h 0 σ = none := by
  intro fuel
  induction fuel with
  | zero =>
    intro h σ
    rfl
  | succ fuel ih =>
    intro h σ
    have hne : ([(![1] : Point 1), ![1]] : List (Point 1)) ≠ [] := by decide
    have hlen : ([(![1] : Point 1), ![1]] : List (Point 1)).length = 2 := rfl
    cases hmed : median [(![1] : Point 1), ![1]] 0 σ with
    | none =>
      simp only [make_node, hmed]
      rw [if_neg (by simp)]
    | some vσ =>
      obtain ⟨v, σ1⟩ := vσ
      have haux := median_correct_aux [(![1] : Point 1), ![1]] 0 σ hne
      rw [hmed] at haux
      have hv : v = 1 := by
        have h1 : v = medianSpec [(![1] : Point 1), ![1]] 0 :=
          Option.some.inj haux
        rw [h1]
        with_unfolding_all decide
      subst hv
      have hdiv : (divide [(![1] : Point 1), ![1]] 0 1).1 =
          [(![1] : Point 1), ![1]] := by
        with_unfolding_all decide
      simp only [make_node, hmed]
      rw [if_neg (by simp)]
      rw [hdiv, ih]

/-- C4: the claim that `Tree::initialize` fails only on the empty input is
wrong — the code also fails on non-empty inputs with shared coordinates.
On two identical 1-D points the construction fails for every recursion
budget: ties go left, so the left partition keeps both points while the
right partition is empty (in Rust: unbounded recursion on the left; had
the empty right half been reached first, `median` would panic on
`length - 1` underflow).  Empty input fails as well. -/
theorem tree_construction_fails_on_duplicate_points (fuel : ℕ)
    (σ : ℕ → ℕ) :
    initTree ([![1], ![1]] : List (Point 1)) σ fuel = none ∧
    initTree ([] : List (Point 1)) σ fuel = none := by
  constructor
  · exact make_node_dup fuel _ σ
  · cases fuel with
    | zero => rfl
    | succ fuel =>
      simp only [initTree, make_node, median]
      rw [if_neg (by simp)]

/-- `Centers::update` from src/centers.rs: recursive aggregation over the
tree.  A leaf assigns its point to the closest center; a non-leaf whose
box has a unique owner contributes its cached
`center_of_mass * number_of_points` and `number_of_points` wholesale;
otherwise it recurses into both children and adds elementwise.  The
arrays `[Point<M>; K]` / `[usize; K]` become `Fin k →` functions; the
source starts them at defaults and adds, so `0 + x` is written `x`. -/
def update (cs : Centers k m) : Tree m → (Fin k → Point m) × (Fin k → ℕ)
  | .leaf _ _ _ p =>
    (fun j => if (j : ℕ) = cs.closest p then p else 0,
     fun j => if (j : ℕ) = cs.closest p then 1 else 0)
  | .node h n c _ _ lt rt =>
    match owner cs h with
    | some kc =>
      (fun j => if (j : ℕ) = kc then mulN c n else 0,
       fun j => if (j : ℕ) = kc then n else 0)
    | none =>
      (fun j => (update cs lt).1 j + (update cs rt).1 j,
       fun j => (update cs lt).2 j + (update cs rt).2 j)

/-- The brute-force baseline: the `Algorithm::Naive` branch of
`KMeans::new` (src/clusterer.rs) scans every input point, finds its
closest center by the same strict first-minimum scan as
`Centers::closest`, and adds the point and a count of one to that
center's totals. -/
def naive_assign (cs : Centers k m) (points : List (Point m)) :
    (Fin k → Point m) × (Fin k → ℕ) :=
  points.foldl
    (fun acc p =>
      (fun j => if (j : ℕ) = cs.closest p then acc.1 j + p else acc.1 j,
       fun j => if (j : ℕ) = cs.closest p then acc.2 j + 1 else acc.2 j))
    (fun _ => 0, fun _ => 0)

lemma naive_fold_char (cs : Centers k m) :
    ∀ (points : List (Point m)) (S : Fin k → Point m) (C : Fin k → ℕ)
      (j : Fin k),
      (points.foldl
        (fun (acc : (Fin k → Point m) × (Fin k → ℕ)) p =>
          (fun j => if (j : ℕ) = cs.closest p then acc.1 j + p else acc.1 j,
           fun j => if (j : ℕ) = cs.closest p then acc.2 j + 1 else acc.2 j))
        (S, C)).1 j =
        S j + psum (points.filter (fun p => decide ((j : ℕ) = cs.closest p))) ∧
      (points.foldl
        (fun (acc : (Fin k → Point m) × (Fin k → ℕ)) p =>
          (fun j => if (j : ℕ) = cs.closest p then acc.1 j + p else acc.1 j,
           fun j => if (j : ℕ) = cs.closest p then acc.2 j + 1 else acc.2 j))
        (S, C)).2 j =
        C j + (points.filter
          (fun p => decide ((j : ℕ) = cs.closest p))).length := by
  intro points
  induction points with
  | nil =>
    intro S C j
    simp [psum_nil]
  | cons p ps ih =>
    intro S C j
    rw [List.foldl_cons]
    obtain ⟨ih1, ih2⟩ := ih
      (fun j => if (j : ℕ) = cs.closest p then S j + p else S j)
      (fun j => if (j : ℕ) = cs.closest p then C j + 1 else C j) j
    constructor
    · rw [ih1]
      by_cases hj : (j : ℕ) = cs.closest p
      · rw [if_pos hj, List.filter_cons_of_pos (by simp [hj]), psum_cons,
          add_assoc, add_comm p, ← add_assoc]
      · rw [if_neg hj, List.filter_cons_of_neg (by simp [hj])]
    · rw [ih2]
      by_cases hj : (j : ℕ) = cs.closest p
      · rw [if_pos hj, List.filter_cons_of_pos (by simp [hj])]
        simp only [List.length_cons]
        omega
      · rw [if_neg hj, List.filter_cons_of_neg (by simp [hj])]

lemma naive_assign_char (cs : Centers k m) (points : List (Point m))
    (j : Fin k) :
    (naive_assign cs points).1 j =
      psum (points.filter (fun p => decide ((j : ℕ) = cs.closest p))) ∧
    (naive_assign cs points).2 j =
      (points.filter (fun p => decide ((j : ℕ) = cs.closest p))).length := by
  obtain ⟨h1, h2⟩ := naive_fold_char cs points (fun _ => 0) (fun _ => 0) j
  rw [naive_assign, h1, h2, zero_add, zero_add]
  exact ⟨rfl, rfl⟩

/-- The baseline only depends on the multiset of input points. -/
lemma naive_assign_perm (cs : Centers k m) {a b : List (Point m)}
    (hp : List.Perm a b) : naive_assign cs a = naive_assign cs b := by
  apply Prod.ext
  · funext j
    rw [(naive_assign_char cs a j).1, (naive_assign_char cs b j).1]
    exact psum_perm (hp.filter _)
  · funext j
    rw [(naive_assign_char cs a j).2, (naive_assign_char cs b j).2]
    exact (hp.filter _).length_eq

lemma get_points_ne_nil : ∀ t : Tree m, t.get_points ≠ [] := by
  intro t
  induction t with
  | leaf h n c p => simp [Tree.get_points]
  | node h n c dd v lt rt ihl ihr =>
    simp only [Tree.get_points, ne_eq, List.append_eq_nil]
    intro hcon
    exact ihl hcon.1

/-- C1 (helper): with correct cached aggregates and sound bounding boxes,
the pruning traversal computes exactly the brute-force per-center sums and
counts over the tree's own points. -/
lemma update_eq_naive (cs : Centers k m) :
    ∀ t : Tree m, t.aggOk → t.boxesOk →
      update cs t = naive_assign cs t.get_points := by
  intro t
  induction t with
  | leaf h n c p =>
    intro _ _
    simp only [Tree.get_points]
    apply Prod.ext
    · funext j
      show (if (j : ℕ) = cs.closest p then p else 0) = _
      rw [(naive_assign_char cs [p] j).1]
      by_cases hj : (j : ℕ) = cs.closest p
      · rw [if_pos hj, List.filter_cons_of_pos (by simp [hj]),
          List.filter_nil, psum_cons, psum_nil, add_zero]
      · rw [if_neg hj, List.filter_cons_of_neg (by simp [hj]),
          List.filter_nil, psum_nil]
    · funext j
      show (if (j : ℕ) = cs.closest p then 1 else 0) = _
      rw [(naive_assign_char cs [p] j).2]
      by_cases hj : (j : ℕ) = cs.closest p
      · rw [if_pos hj, List.filter_cons_of_pos (by simp [hj]),
          List.filter_nil]
        rfl
      · rw [if_neg hj, List.filter_cons_of_neg (by simp [hj]),
          List.filter_nil]
        rfl
  | node h n c dd v lt rt ihl ihr =>
    intro hagg hbox
    obtain ⟨hn, hc, haggL, haggR⟩ := hagg
    obtain ⟨hcont, _, _, hboxL, hboxR⟩ := hbox
    simp only [Tree.get_points]
    cases how : owner cs h with
    | some kc =>
      have hclose : ∀ p ∈ lt.get_points ++ rt.get_points,
          cs.closest p = kc :=
        fun p hp => owner_sound_aux cs h kc how p (hcont p hp)
      have hlen_pos : (lt.get_points ++ rt.get_points).length ≠ 0 := by
        simp only [ne_eq, List.length_eq_zero]
        intro hcon
        exact get_points_ne_nil lt (List.append_eq_nil.mp hcon).1
      apply Prod.ext
      · funext j
        show (update cs (.node h n c dd v lt rt)).1 j = _
        simp only [update, how]
        rw [(naive_assign_char cs _ j).1]
        by_cases hj : (j : ℕ) = kc
        · rw [if_pos hj]
          rw [List.filter_eq_self.mpr (fun a ha => by simp [hclose a ha, hj])]
          rw [hc, hn]
          funext e
          show psum (lt.get_points ++ rt.get_points) e /
              ((lt.get_points ++ rt.get_points).length : ℚ) *
              ((lt.get_points ++ rt.get_points).length : ℚ) = _
          rw [div_mul_cancel₀]
          exact Nat.cast_ne_zero.mpr hlen_pos
        · rw [if_neg hj]
          rw [List.filter_eq_nil_iff.mpr
            (fun a ha => by simp [hclose a ha, hj])]
          exact psum_nil.symm
      · funext j
        show (update cs (.node h n c dd v lt rt)).2 j = _
        simp only [update, how]
        rw [(naive_assign_char cs _ j).2]
        by_cases hj : (j : ℕ) = kc
        · rw [if_pos hj]
          rw [List.filter_eq_self.mpr (fun a ha => by simp [hclose a ha, hj])]
          exact hn
        · rw [if_neg hj]
          rw [List.filter_eq_nil_iff.mpr
            (fun a ha => by simp [hclose a ha, hj])]
          rfl
    | none =>
      have hL := ihl haggL hboxL
      have hR := ihr haggR hboxR
      apply Prod.ext
      · funext j
        show (update cs (.node h n c dd v lt rt)).1 j = _
        simp only [update, how]
        rw [hL, hR, (naive_assign_char cs _ j).1,
          (naive_assign_char cs _ j).1, (naive_assign_char cs _ j).1,
          List.filter_append, psum_append]
      · funext j
        show (update cs (.node h n c dd v lt rt)).2 j = _
        simp only [update, how]
        rw [hL, hR, (naive_assign_char cs _ j).2,
          (naive_assign_char cs _ j).2, (naive_assign_char cs _ j).2,
          List.filter_append, List.length_append]

/-- C1: for every set of `K` centers and every tree built by
`Tree::initialize` over a point set, `Centers::update(tree)` returns
exactly the per-center summed positions and counts of the brute-force
baseline that scans every input point and assigns it to its closest
center via `Centers::closest` — exact real (rational) arithmetic, i.e. up
to floating-point summation order. -/
theorem update_equivalence (cs : Centers k m) (points : List (Point m))
    (σ : ℕ → ℕ) (fuel : ℕ) (t : Tree m) (σ2 : ℕ → ℕ)
    (hbuild : initTree points σ fuel = some (t, σ2)) :
    update cs t = naive_assign cs points := by
  have hagg := make_node_agg fuel points _ 0 σ t σ2 hbuild
  have hbox :=
    (make_node_boxes fuel points _ 0 σ t σ2 hbuild
      (get_range_contains points)).1
  have hperm := make_node_perm fuel points _ 0 σ t σ2 hbuild
  rw [update_eq_naive cs t hagg hbox]
  exact naive_assign_perm cs hperm

/-- Witness for C1: two 1-D points `{0, 2}` and one center; the pruned
traversal and the brute-force scan agree. -/
theorem update_equivalence_witness :
    update (![![5]] : Centers 1 1)
        ((initTree ([![0], ![2]] : List (Point 1)) (fun _ => 0) 3).getD
          (Tree.leaf ⟨0, 0⟩ 0 0 0, id)).1 =
      naive_assign (![![5]] : Centers 1 1) ([![0], ![2]] : List (Point 1)) :=
  update_equivalence (![![5]] : Centers 1 1) ([![0], ![2]] : List (Point 1))
    (fun _ => 0) 3
    ((initTree ([![0], ![2]] : List (Point 1)) (fun _ => 0) 3).getD
      (Tree.leaf ⟨0, 0⟩ 0 0 0, id)).1
    ((initTree ([![0], ![2]] : List (Point 1)) (fun _ => 0) 3).getD
      (Tree.leaf ⟨0, 0⟩ 0 0 0, id)).2
    (by with_unfolding_all rfl)

end kmeans
